import Mathlib

/-!
# Verification of `internal/moremath`

A shallow embedding of `src/internal/moremath/moremath.go` (the Wasm-compatible
`fmin`, `fmax` and `nearest` helpers) together with the IEEE-754 binary32 /
binary64 operations of the Go language and of package `math` that the file uses.

Floating-point values are modelled by their bit fields (sign, biased exponent,
fraction), so equality of two values of `FP f` is bit-for-bit equality.  The exact
real value of a finite number is kept as an integer multiple of the universal unit
`2^-1075` (half the smallest binary64 subnormal), which makes every finite binary32
and binary64 value, and every such value divided by two, an integer.
-/

namespace Moremath

/-! ## Data model: IEEE-754 binary formats -/

/-- The two IEEE-754 binary interchange formats used by the package. -/
inductive Fmt where
  | b32
  | b64
  deriving DecidableEq, Repr

/-- Number of explicitly stored fraction bits. -/
def Fmt.mbits : Fmt → Nat
  | .b32 => 23
  | .b64 => 52

/-- Number of bits of the biased-exponent field. -/
def Fmt.ebits : Fmt → Nat
  | .b32 => 8
  | .b64 => 11

/-- Base-two logarithm of the smallest positive subnormal, counted in units of
`2^-1075`: binary64 has smallest subnormal `2^-1074`, binary32 has `2^-149`. -/
def Fmt.qshift : Fmt → Nat
  | .b32 => 926
  | .b64 => 1

/-- The all-ones exponent field, reserved for infinities and NaNs. -/
def Fmt.emax (f : Fmt) : Nat := 2 ^ f.ebits - 1

/-- The real number one, in units of `2^-1075`. -/
def unitOne : Nat := 2 ^ 1075

/-- A floating-point datum of format `f`, given by its three bit fields. -/
structure FP (f : Fmt) where
  sign : Bool
  exp : Fin (2 ^ f.ebits)
  mant : Fin (2 ^ f.mbits)
  deriving DecidableEq

/-- Go `float64`. -/
abbrev F64 := FP Fmt.b64

/-- Go `float32`. -/
abbrev F32 := FP Fmt.b32

/-- Assemble a datum from its fields; each field is masked to its width. -/
def pack (f : Fmt) (s : Bool) (e m : Nat) : FP f :=
  ⟨s, ⟨e % 2 ^ f.ebits, Nat.mod_lt _ (Nat.pos_pow_of_pos _ (by decide))⟩,
      ⟨m % 2 ^ f.mbits, Nat.mod_lt _ (Nat.pos_pow_of_pos _ (by decide))⟩⟩

/-- Not-a-number: exponent all ones, fraction non-zero (`math.IsNaN`, i.e. `f != f`). -/
def IsNaN {f : Fmt} (x : FP f) : Bool :=
  decide (x.exp.val = f.emax) && decide (x.mant.val ≠ 0)

/-- An infinity of either sign: exponent all ones, fraction zero. -/
def isInfinite {f : Fmt} (x : FP f) : Bool :=
  decide (x.exp.val = f.emax) && decide (x.mant.val = 0)

/-- Neither an infinity nor a NaN. -/
def isFinite {f : Fmt} (x : FP f) : Bool :=
  decide (x.exp.val < f.emax)

/-- A zero of either sign. -/
def isZero {f : Fmt} (x : FP f) : Bool :=
  decide (x.exp.val = 0) && decide (x.mant.val = 0)

/-- Go `math.Signbit`: the sign bit is set. -/
def Signbit {f : Fmt} (x : FP f) : Bool := x.sign

/-- Go `math.IsInf(f, sign)`: `sign > 0` asks for `+Inf`, `sign < 0` for `-Inf`,
`sign == 0` for either. -/
def IsInf {f : Fmt} (x : FP f) (sign : Int) : Bool :=
  (decide (sign ≥ 0) && isInfinite x && !x.sign) ||
  (decide (sign ≤ 0) && isInfinite x && x.sign)

/-- Go `math.Inf(sign)`: `+Inf` when `sign >= 0`, `-Inf` otherwise. -/
def Inf (f : Fmt) (sign : Int) : FP f :=
  pack f (decide (sign < 0)) f.emax 0

/-- Go `math.NaN()`: the quiet NaN with bit pattern `0x7FF8000000000001` (and its
binary32 analogue). -/
def NaN (f : Fmt) : FP f :=
  pack f false f.emax (2 ^ (f.mbits - 1) + 1)

/-- The constant `0` converted to a float: positive zero. -/
def zero (f : Fmt) : FP f := pack f false 0 0

/-- Negative zero. -/
def negZero (f : Fmt) : FP f := pack f true 0 0

/-- Significand as an integer: the fraction for subnormals, the fraction with the
hidden bit for every other exponent. -/
def sig {f : Fmt} (x : FP f) : Nat :=
  if x.exp.val = 0 then x.mant.val else 2 ^ f.mbits + x.mant.val

/-- Weight of the last significand bit, as a power of two of the unit `2^-1075`. -/
def sh {f : Fmt} (x : FP f) : Nat := (x.exp.val - 1) + f.qshift

/-- Magnitude in units of `2^-1075`.  For a finite datum this is exactly its absolute
value; an infinity gets the magnitude of the first binade beyond the finite range, so
that it compares above every finite value. -/
def mag {f : Fmt} (x : FP f) : Nat := sig x * 2 ^ sh x

/-- Signed magnitude in units of `2^-1075`; both zeros have key `0`. -/
def key {f : Fmt} (x : FP f) : Int :=
  if x.sign then -(mag x : Int) else (mag x : Int)

/-- Go `x == y` on floats: false when either side is NaN, `+0 == -0`. -/
def feq {f : Fmt} (x y : FP f) : Bool :=
  !IsNaN x && !IsNaN y && decide (key x = key y)

/-- Go `x != y` on floats: the negation of `==`. -/
def fne {f : Fmt} (x y : FP f) : Bool := !feq x y

/-- Go `x < y` on floats: false when either side is NaN. -/
def flt {f : Fmt} (x y : FP f) : Bool :=
  !IsNaN x && !IsNaN y && decide (key x < key y)

/-- Go `x > y` on floats. -/
def fgt {f : Fmt} (x y : FP f) : Bool := flt y x

/-- Go `x <= y` on floats: false when either side is NaN. -/
def fle {f : Fmt} (x y : FP f) : Bool :=
  !IsNaN x && !IsNaN y && decide (key x ≤ key y)

/-- Go `x >= y` on floats. -/
def fge {f : Fmt} (x y : FP f) : Bool := fle y x

/-! ## `WasmCompatMin` and `WasmCompatMax` -/

/-- Embedding of `WasmCompatMin` (moremath.go lines 8-24). -/
def WasmCompatMin (x y : F64) : F64 :=
  if IsNaN x || IsNaN y then NaN Fmt.b64
  else if IsInf x (-1) || IsInf y (-1) then Inf Fmt.b64 (-1)
  else if feq x (zero Fmt.b64) && feq x y then
    if Signbit x then x else y
  else if flt x y then x
  else y

/-- Embedding of `WasmCompatMax` (moremath.go lines 29-46). -/
def WasmCompatMax (x y : F64) : F64 :=
  if IsNaN x || IsNaN y then NaN Fmt.b64
  else if IsInf x 1 || IsInf y 1 then Inf Fmt.b64 1
  else if feq x (zero Fmt.b64) && feq x y then
    if Signbit x then y else x
  else if fgt x y then x
  else y

/-! ## IEEE-754 arithmetic used by the `nearest` functions -/

/-- Right shift that brings an exact magnitude `n` (in units of `2^-1075`) to a
significand of at most `mbits + 1` bits: the binade of `n`, but never below the
subnormal weight of the format. -/
def shiftOf (f : Fmt) (n : Nat) : Nat :=
  max (Nat.log2 n) (f.mbits + f.qshift) - f.mbits

/-- Significand obtained by rounding `n / 2^k` to the nearest integer, ties to even. -/
def roundSig (n k : Nat) : Nat :=
  let q := n / 2 ^ k
  let r := n % 2 ^ k
  let half := 2 ^ (k - 1)
  if r > half ∨ (r = half ∧ q % 2 = 1) then q + 1 else q

/-- IEEE-754 rounding to nearest, ties to even, of the exact value `(-1)^s * n * 2^-1075`
into format `f`; magnitudes beyond the finite range give an infinity.  The biased
exponent is the excess of the shift over the subnormal weight plus the overflow of the
rounded significand into the hidden bit (0 subnormal, 1 normal, 2 carry into the next
binade). -/
def roundTo (f : Fmt) (s : Bool) (n : Nat) : FP f :=
  let k := shiftOf f n
  let q := roundSig n k
  let e := (k - f.qshift) + q / 2 ^ f.mbits
  if e ≥ f.emax then pack f s f.emax 0 else pack f s e (q % 2 ^ f.mbits)

/-- Unary minus: flips the sign bit. -/
def fneg {f : Fmt} (x : FP f) : FP f := ⟨!x.sign, x.exp, x.mant⟩

/-- Go `math.Abs`: clears the sign bit. -/
def Abs {f : Fmt} (x : FP f) : FP f := ⟨false, x.exp, x.mant⟩

/-- Largest multiple of one that is at most `n` (magnitudes in units of `2^-1075`). -/
def floorUnits (n : Nat) : Nat := n / unitOne * unitOne

/-- Smallest multiple of one that is at least `n`. -/
def ceilUnits (n : Nat) : Nat := (n + unitOne - 1) / unitOne * unitOne

/-- Go `math.Floor`: the greatest integer value less than or equal to `x`, with
`Floor(±0) = ±0`, `Floor(±Inf) = ±Inf`, `Floor(NaN) = NaN`.  As in the Go library, a
negative argument has its magnitude rounded up and keeps its sign. -/
def Floor {f : Fmt} (x : FP f) : FP f :=
  if isZero x || IsNaN x || IsInf x 0 then x
  else if x.sign then roundTo f true (ceilUnits (mag x))
  else roundTo f false (floorUnits (mag x))

/-- Go `math.Ceil`, defined in the library as `-Floor(-x)`. -/
def Ceil {f : Fmt} (x : FP f) : FP f := fneg (Floor (fneg x))

/-- Go `x - y` on floats (IEEE-754 subtraction, round to nearest even).  A NaN result
is returned as the default quiet NaN; an exact zero difference is `+0` unless `x` is
`-0` and `y` is `+0`. -/
def fsub {f : Fmt} (x y : FP f) : FP f :=
  if IsNaN x || IsNaN y then NaN f
  else if isInfinite x then
    if isInfinite y && x.sign == y.sign then NaN f else x
  else if isInfinite y then fneg y
  else
    let d : Int := key x - key y
    if d = 0 then pack f (x.sign && !y.sign) 0 0
    else roundTo f (decide (d < 0)) d.natAbs

/-- Go `x / 2.0` on floats: NaN and infinities are kept, a finite value has its exact
half (an integer number of units, every magnitude being even) rounded to nearest even. -/
def fhalf {f : Fmt} (x : FP f) : FP f :=
  if IsNaN x then NaN f
  else if isInfinite x then x
  else roundTo f x.sign (mag x / 2)

/-- Go conversion between float types (`float64(x)`, `float32(x)`): the value is
rounded to nearest even in the target format; a NaN stays a (quiet) NaN of the same
sign with its payload aligned to the target fraction. -/
def convert {f : Fmt} (g : Fmt) (x : FP f) : FP g :=
  if IsNaN x then
    pack g x.sign g.emax
      (2 ^ (g.mbits - 1) + (x.mant.val * 2 ^ g.mbits / 2 ^ f.mbits) % 2 ^ (g.mbits - 1))
  else if isInfinite x then pack g x.sign g.emax 0
  else roundTo g x.sign (mag x)

/-- Go `float64(x)` for `x` of type `float32`. -/
def toF64 (x : F32) : F64 := convert Fmt.b64 x

/-- Go `float32(x)` for `x` of type `float64`. -/
def toF32 (x : F64) : F32 := convert Fmt.b32 x

/-! ## `WasmCompatNearestF32` and `WasmCompatNearestF64` -/

/-- Embedding of `WasmCompatNearestF32` (moremath.go lines 51-68).  The Go constant
`-0` is the integer zero, so both guards compare against `+0.0`. -/
def WasmCompatNearestF32 (f : F32) : F32 :=
  if fne f (zero Fmt.b32) && fne f (zero Fmt.b32) then
    let ceil := toF32 (Ceil (toF64 f))
    let floor := toF32 (Floor (toF64 f))
    let distToCeil := Abs (toF64 (fsub f ceil))
    let distToFloor := Abs (toF64 (fsub f floor))
    let h := fhalf ceil
    if flt distToCeil distToFloor then ceil
    else if feq distToCeil distToFloor && feq (toF32 (Floor (toF64 h))) h then ceil
    else floor
  else f

/-- Embedding of `WasmCompatNearestF64` (moremath.go lines 73-90).  The Go constant
`-0` is the integer zero, so both guards compare against `+0.0`; `float64(h)` is the
identity on a `float64`. -/
def WasmCompatNearestF64 (f : F64) : F64 :=
  if fne f (zero Fmt.b64) && fne f (zero Fmt.b64) then
    let ceil := Ceil f
    let floor := Floor f
    let distToCeil := Abs (fsub f ceil)
    let distToFloor := Abs (fsub f floor)
    let h := fhalf ceil
    if flt distToCeil distToFloor then ceil
    else if feq distToCeil distToFloor && feq (Floor h) h then ceil
    else floor
  else f

/-! ## Auxiliary notions used in the statements and proofs -/

/-- A magnitude is representable in format `f`: a significand of at most `mbits + 1` bits
at a weight not below the subnormal weight, below the overflow bound. -/
def Rep (f : Fmt) (v : Nat) : Prop :=
  ∃ M j, v = M * 2 ^ j ∧ M < 2 ^ (f.mbits + 1) ∧ f.qshift ≤ j ∧
    v < 2 ^ f.mbits * 2 ^ (f.emax - 1 + f.qshift)

/-- Mathematical round-to-nearest-integer, ties to even, on magnitudes counted in units
of `2^-1075`: the nearer of the two neighbouring multiples of one, and on a tie the one
whose quotient by one is even. -/
def rneUnits (n : Nat) : Nat :=
  let t := n / unitOne
  let a := n % unitOne
  if 2 * a < unitOne then t * unitOne
  else if unitOne < 2 * a then (t + 1) * unitOne
  else if t % 2 = 0 then t * unitOne
  else (t + 1) * unitOne

/-- The `nearest` algorithm of moremath.go written once for an arbitrary format, every
operation being carried out in that format.  `WasmCompatNearestF64` is this function at
binary64; `WasmCompatNearestF32` is compared with it at binary32. -/
def nearestGen {f : Fmt} (x : FP f) : FP f :=
  if fne x (zero f) && fne x (zero f) then
    let ceil := Ceil x
    let floor := Floor x
    let distToCeil := Abs (fsub x ceil)
    let distToFloor := Abs (fsub x floor)
    let h := fhalf ceil
    if flt distToCeil distToFloor then ceil
    else if feq distToCeil distToFloor && feq (Floor h) h then ceil
    else floor
  else x

/-- Exact value of a finite datum as a rational number: its signed magnitude divided by
the number of units in one. -/
def toRat {f : Fmt} (x : FP f) : ℚ := (key x : ℚ) / (unitOne : ℚ)

/-- Total-order key on non-NaN data: the IEEE order refined by placing `-0` just below
`+0`.  Distinct data have distinct order keys. -/
def okey {f : Fmt} (x : FP f) : Int := 2 * key x + (if x.sign then 0 else 1)

/-- Mathematical round-to-nearest-integer, ties to even, on signed keys: `rneUnits`
applied to the absolute value, with the sign restored. -/
def rneKey (k : Int) : Int :=
  if k < 0 then -(rneUnits k.natAbs : Int) else (rneUnits k.natAbs : Int)

/-! ## Basic facts about the encoding -/

theorem two_pow_pos (n : Nat) : 0 < 2 ^ n := Nat.pos_pow_of_pos _ (by decide)

theorem pack_sign (f : Fmt) (s : Bool) (e m : Nat) : (pack f s e m).sign = s := rfl

theorem pack_exp (f : Fmt) (s : Bool) (e m : Nat) (h : e < 2 ^ f.ebits) :
    (pack f s e m).exp.val = e := Nat.mod_eq_of_lt h

theorem pack_mant (f : Fmt) (s : Bool) (e m : Nat) (h : m < 2 ^ f.mbits) :
    (pack f s e m).mant.val = m := Nat.mod_eq_of_lt h

theorem FP.ext_fields {f : Fmt} {x y : FP f} (hs : x.sign = y.sign)
    (he : x.exp.val = y.exp.val) (hm : x.mant.val = y.mant.val) : x = y := by
  cases x; cases y
  simp only [FP.mk.injEq]
  exact ⟨hs, Fin.ext he, Fin.ext hm⟩

theorem emax_lt (f : Fmt) : f.emax < 2 ^ f.ebits := by
  unfold Fmt.emax
  have := two_pow_pos f.ebits
  omega

theorem emax_pos (f : Fmt) : 2 ≤ f.emax := by
  cases f <;> decide

theorem mbits_pos (f : Fmt) : 1 ≤ f.mbits := by
  cases f <;> decide

theorem qshift_pos (f : Fmt) : 1 ≤ f.qshift := by
  cases f <;> decide

theorem exp_le_emax {f : Fmt} (x : FP f) : x.exp.val ≤ f.emax := by
  have := x.exp.isLt
  unfold Fmt.emax
  omega

theorem sig_lt {f : Fmt} (x : FP f) : sig x < 2 ^ (f.mbits + 1) := by
  have hm := x.mant.isLt
  unfold sig
  rw [Nat.pow_succ]
  split <;> omega

theorem sig_ge {f : Fmt} (x : FP f) (h : x.exp.val ≠ 0) : 2 ^ f.mbits ≤ sig x := by
  unfold sig
  rw [if_neg h]
  omega

theorem sig_lt_of_exp_zero {f : Fmt} (x : FP f) (h : x.exp.val = 0) :
    sig x < 2 ^ f.mbits := by
  unfold sig
  rw [if_pos h]
  exact x.mant.isLt

/-- The magnitude is strictly increasing in the exponent field. -/
theorem mag_lt_of_exp_lt {f : Fmt} (x y : FP f) (h : x.exp.val < y.exp.val) :
    mag x < mag y := by
  have hy : 2 ^ f.mbits ≤ sig y := sig_ge y (by omega)
  by_cases hx : x.exp.val = 0
  · have hsx := sig_lt_of_exp_zero x hx
    have hsh : sh x ≤ sh y := by unfold sh; omega
    calc mag x = sig x * 2 ^ sh x := rfl
      _ < 2 ^ f.mbits * 2 ^ sh x := Nat.mul_lt_mul_of_pos_right hsx (two_pow_pos _)
      _ ≤ 2 ^ f.mbits * 2 ^ sh y :=
          Nat.mul_le_mul_left _ (Nat.pow_le_pow_right (by decide) hsh)
      _ ≤ sig y * 2 ^ sh y := Nat.mul_le_mul_right _ hy
  · have hsx := sig_lt x
    have hsh : sh x + 1 ≤ sh y := by unfold sh; omega
    calc mag x = sig x * 2 ^ sh x := rfl
      _ < 2 ^ (f.mbits + 1) * 2 ^ sh x := Nat.mul_lt_mul_of_pos_right hsx (two_pow_pos _)
      _ = 2 ^ f.mbits * 2 ^ (sh x + 1) := by rw [Nat.pow_succ, Nat.pow_succ]; ring
      _ ≤ 2 ^ f.mbits * 2 ^ sh y :=
          Nat.mul_le_mul_left _ (Nat.pow_le_pow_right (by decide) hsh)
      _ ≤ sig y * 2 ^ sh y := Nat.mul_le_mul_right _ hy

/-- Within one exponent the magnitude is strictly increasing in the fraction. -/
theorem mag_lt_of_mant_lt {f : Fmt} (x y : FP f) (he : x.exp.val = y.exp.val)
    (h : x.mant.val < y.mant.val) : mag x < mag y := by
  have hs : sig x < sig y := by
    unfold sig
    rw [he]
    split <;> omega
  have hsh : sh x = sh y := by unfold sh; rw [he]
  unfold mag
  rw [hsh]
  exact Nat.mul_lt_mul_of_pos_right hs (two_pow_pos _)

/-- The magnitude determines the exponent and fraction fields. -/
theorem mag_inj {f : Fmt} (x y : FP f) (h : mag x = mag y) :
    x.exp.val = y.exp.val ∧ x.mant.val = y.mant.val := by
  have he : x.exp.val = y.exp.val := by
    rcases Nat.lt_trichotomy x.exp.val y.exp.val with h1 | h1 | h1
    · have := mag_lt_of_exp_lt x y h1; omega
    · exact h1
    · have := mag_lt_of_exp_lt y x h1; omega
  refine ⟨he, ?_⟩
  rcases Nat.lt_trichotomy x.mant.val y.mant.val with h1 | h1 | h1
  · have := mag_lt_of_mant_lt x y he h1; omega
  · exact h1
  · have := mag_lt_of_mant_lt y x he.symm h1; omega

theorem mag_eq_zero_iff {f : Fmt} (x : FP f) : mag x = 0 ↔ isZero x = true := by
  unfold mag isZero sig
  have hp := two_pow_pos (sh x)
  have hm := two_pow_pos f.mbits
  constructor
  · intro h
    rcases Nat.mul_eq_zero.mp h with h1 | h1
    · split at h1
      · simp [*]
      · omega
    · omega
  · intro h
    simp only [Bool.and_eq_true, decide_eq_true_eq] at h
    rw [if_pos h.1, h.2, Nat.zero_mul]

/-- Two data with the same key are bit-identical unless they are the two zeros. -/
theorem eq_of_key_eq {f : Fmt} (x y : FP f) (h : key x = key y)
    (hz : isZero x = false) : x = y := by
  have hx : mag x ≠ 0 := by
    intro h0
    rw [(mag_eq_zero_iff x).mp h0] at hz
    exact Bool.noConfusion hz
  unfold key at h
  have hmag : mag x = mag y ∧ x.sign = y.sign := by
    cases hsx : x.sign <;> cases hsy : y.sign <;> simp only [hsx, hsy] at h <;>
      simp at h <;> first | exact ⟨by omega, rfl⟩ | omega
  exact FP.ext_fields hmag.2 (mag_inj x y hmag.1).1 (mag_inj x y hmag.1).2

/-! ## Special values -/

theorem isNaN_NaN (f : Fmt) : IsNaN (NaN f) = true := by
  cases f <;> decide

theorem Inf_sign (f : Fmt) (s : Int) : (Inf f s).sign = decide (s < 0) := rfl

theorem Inf_exp (f : Fmt) (s : Int) : (Inf f s).exp.val = f.emax :=
  pack_exp f _ _ _ (emax_lt f)

theorem Inf_mant (f : Fmt) (s : Int) : (Inf f s).mant.val = 0 :=
  pack_mant f _ _ _ (two_pow_pos _)

theorem isNaN_Inf (f : Fmt) (s : Int) : IsNaN (Inf f s) = false := by
  unfold IsNaN
  rw [Inf_mant]
  simp

theorem isInfinite_Inf (f : Fmt) (s : Int) : isInfinite (Inf f s) = true := by
  unfold isInfinite
  rw [Inf_mant, Inf_exp]
  simp

theorem IsInf_neg_iff {f : Fmt} (x : FP f) : IsInf x (-1) = true ↔ x = Inf f (-1) := by
  constructor
  · intro h
    unfold IsInf isInfinite at h
    simp only [ge_iff_le, Left.nonneg_neg_iff, Int.reduceLE, decide_False, Bool.false_and,
      Left.neg_nonpos_iff, zero_le_one, decide_True, Bool.true_and, Bool.false_or,
      Bool.and_eq_true, decide_eq_true_eq] at h
    exact FP.ext_fields (by rw [h.2, Inf_sign]; decide) (by rw [h.1.1, Inf_exp])
      (by rw [h.1.2, Inf_mant])
  · intro h
    subst h
    unfold IsInf
    rw [isInfinite_Inf, Inf_sign]
    decide

theorem IsInf_pos_iff {f : Fmt} (x : FP f) : IsInf x 1 = true ↔ x = Inf f 1 := by
  constructor
  · intro h
    unfold IsInf isInfinite at h
    simp only [ge_iff_le, zero_le_one, decide_True, Bool.true_and, Int.reduceLE, decide_False,
      Bool.false_and, Bool.or_false, Bool.and_eq_true, decide_eq_true_eq,
      Bool.not_eq_true'] at h
    exact FP.ext_fields (by rw [h.2, Inf_sign]; decide) (by rw [h.1.1, Inf_exp])
      (by rw [h.1.2, Inf_mant])
  · intro h
    subst h
    unfold IsInf
    rw [isInfinite_Inf, Inf_sign]
    decide

/-- No datum other than a NaN exceeds the magnitude given to the infinities. -/
theorem mag_le_Inf {f : Fmt} (x : FP f) (s : Int) (h : IsNaN x = false) :
    mag x ≤ mag (Inf f s) := by
  rcases Nat.lt_or_ge x.exp.val f.emax with h1 | h1
  · exact Nat.le_of_lt (mag_lt_of_exp_lt x _ (by rw [Inf_exp]; exact h1))
  · have he : x.exp.val = f.emax := Nat.le_antisymm (exp_le_emax x) h1
    have hm : x.mant.val = 0 := by
      unfold IsNaN at h
      simpa [he] using h
    unfold mag sig sh
    rw [Inf_exp, Inf_mant, he, hm]

theorem key_neg_Inf_le {f : Fmt} (x : FP f) (h : IsNaN x = false) :
    key (Inf f (-1)) ≤ key x := by
  have h1 := mag_le_Inf x (-1) h
  unfold key
  rw [Inf_sign]
  simp only [Left.neg_neg_iff, zero_lt_one, decide_True, if_true]
  split <;> omega

theorem key_le_pos_Inf {f : Fmt} (x : FP f) (h : IsNaN x = false) :
    key x ≤ key (Inf f 1) := by
  have h1 := mag_le_Inf x 1 h
  unfold key
  rw [Inf_sign]
  simp only [Int.reduceLT, decide_False, Bool.false_eq_true, if_false]
  split <;> omega

theorem feq_zero_iff {f : Fmt} (x : FP f) (h : IsNaN x = false) :
    feq x (zero f) = true ↔ isZero x = true := by
  have hz : key (zero f) = 0 := by
    have h0 : mag (zero f) = 0 := (mag_eq_zero_iff _).mpr (by cases f <;> decide)
    unfold key
    rw [h0]
    simp
  have hn : IsNaN (zero f) = false := by cases f <;> decide
  unfold feq
  rw [h, hn, hz, ← mag_eq_zero_iff]
  unfold key
  simp only [Bool.not_false, Bool.and_self, Bool.true_and, decide_eq_true_eq]
  split <;> omega

/-- A zero is one of the two signed zeros, bit for bit. -/
theorem eq_zero_of_isZero {f : Fmt} (x : FP f) (h : isZero x = true) :
    x = if x.sign then negZero f else zero f := by
  unfold isZero at h
  simp only [Bool.and_eq_true, decide_eq_true_eq] at h
  have he : (pack f x.sign 0 0).exp.val = 0 := pack_exp f _ _ _ (two_pow_pos _)
  have hm : (pack f x.sign 0 0).mant.val = 0 := pack_mant f _ _ _ (two_pow_pos _)
  have : x = pack f x.sign 0 0 := FP.ext_fields rfl (by rw [h.1, he]) (by rw [h.2, hm])
  cases hs : x.sign <;> rw [hs] at this <;> simpa [negZero, zero] using this

/-! ## Claims about `WasmCompatMin` and `WasmCompatMax` -/

/-- A NaN operand in either position makes both results the default NaN. -/
theorem nan_operand_gives_nan (x y : F64) (h : IsNaN x = true ∨ IsNaN y = true) :
    IsNaN (WasmCompatMin x y) = true ∧ IsNaN (WasmCompatMax x y) = true := by
  have hc : (IsNaN x || IsNaN y) = true := by
    rcases h with h | h <;> simp [h]
  unfold WasmCompatMin WasmCompatMax
  rw [if_pos hc, if_pos hc]
  exact ⟨isNaN_NaN _, isNaN_NaN _⟩

/-- C1 (NaN dominance): if either operand is a NaN, of any payload and in either
position, and whatever the other operand is (infinities included), then both
`WasmCompatMin x y` and `WasmCompatMax x y` are NaN. -/
theorem C1_nan_dominance (x y : F64) (h : IsNaN x = true ∨ IsNaN y = true) :
    IsNaN (WasmCompatMin x y) = true ∧ IsNaN (WasmCompatMax x y) = true :=
  nan_operand_gives_nan x y h

/-- Witness for C1 at the inputs `(NaN, -Inf)` named by the claim. -/
theorem C1_nan_dominance_witness :
    IsNaN (NaN Fmt.b64) = true ∧
    (IsNaN (WasmCompatMin (NaN Fmt.b64) (Inf Fmt.b64 (-1))) = true ∧
     IsNaN (WasmCompatMax (NaN Fmt.b64) (Inf Fmt.b64 (-1))) = true) :=
  ⟨by decide, C1_nan_dominance (NaN Fmt.b64) (Inf Fmt.b64 (-1)) (Or.inl (by decide))⟩

/-- C2 (signed-zero disambiguation): when both operands are zeros, `WasmCompatMin` is
bit-identical to `-0.0` if at least one operand is `-0.0` and to `+0.0` otherwise, and
`WasmCompatMax` is bit-identical to `+0.0` if at least one operand is `+0.0` and to
`-0.0` otherwise. -/
theorem C2_signed_zero (x y : F64) (hx : isZero x = true) (hy : isZero y = true) :
    WasmCompatMin x y = (if x.sign || y.sign then negZero Fmt.b64 else zero Fmt.b64) ∧
    WasmCompatMax x y = (if !x.sign || !y.sign then zero Fmt.b64 else negZero Fmt.b64) := by
  have ex := eq_zero_of_isZero x hx
  have ey := eq_zero_of_isZero y hy
  cases hsx : x.sign <;> cases hsy : y.sign <;> rw [hsx] at ex <;> rw [hsy] at ey <;>
    simp only [Bool.false_eq_true, if_false, if_true] at ex ey <;> subst ex <;> subst ey <;>
    decide

/-- Witness for C2 at `(+0.0, -0.0)`. -/
theorem C2_signed_zero_witness :
    isZero (zero Fmt.b64) = true ∧ isZero (negZero Fmt.b64) = true ∧
    WasmCompatMin (zero Fmt.b64) (negZero Fmt.b64) = negZero Fmt.b64 ∧
    WasmCompatMax (zero Fmt.b64) (negZero Fmt.b64) = zero Fmt.b64 :=
  ⟨by decide, by decide, C2_signed_zero (zero Fmt.b64) (negZero Fmt.b64) (by decide) (by decide)⟩

/-- C7 (absorbing infinities): for every non-NaN `y`, `WasmCompatMin` with `-Inf` in
either position is `-Inf`, and `WasmCompatMax` with `+Inf` in either position is `+Inf`. -/
theorem C7_absorbing_infinities (y : F64) (hy : IsNaN y = false) :
    WasmCompatMin (Inf Fmt.b64 (-1)) y = Inf Fmt.b64 (-1) ∧
    WasmCompatMin y (Inf Fmt.b64 (-1)) = Inf Fmt.b64 (-1) ∧
    WasmCompatMax (Inf Fmt.b64 1) y = Inf Fmt.b64 1 ∧
    WasmCompatMax y (Inf Fmt.b64 1) = Inf Fmt.b64 1 := by
  have hn : IsInf (Inf Fmt.b64 (-1)) (-1) = true := (IsInf_neg_iff _).mpr rfl
  have hp : IsInf (Inf Fmt.b64 1) 1 = true := (IsInf_pos_iff _).mpr rfl
  unfold WasmCompatMin WasmCompatMax
  simp [hy, isNaN_Inf, hn, hp]

/-- Witness for C7 at `y = +0.0`. -/
theorem C7_absorbing_infinities_witness :
    IsNaN (zero Fmt.b64) = false ∧
    (WasmCompatMin (Inf Fmt.b64 (-1)) (zero Fmt.b64) = Inf Fmt.b64 (-1) ∧
     WasmCompatMin (zero Fmt.b64) (Inf Fmt.b64 (-1)) = Inf Fmt.b64 (-1) ∧
     WasmCompatMax (Inf Fmt.b64 1) (zero Fmt.b64) = Inf Fmt.b64 1 ∧
     WasmCompatMax (zero Fmt.b64) (Inf Fmt.b64 1) = Inf Fmt.b64 1) :=
  ⟨by decide, C7_absorbing_infinities (zero Fmt.b64) (by decide)⟩

/-- C8 (ordinary comparison): for non-NaN `x`, `y`, `WasmCompatMin x y` is bit-identical
to `x` or to `y` and is `<=` both under the IEEE ordering, `WasmCompatMax x y` is
bit-identical to `x` or to `y` and is `>=` both, and neither result is a NaN. -/
theorem C8_ordinary_comparison (x y : F64) (hx : IsNaN x = false) (hy : IsNaN y = false) :
    ((WasmCompatMin x y = x ∨ WasmCompatMin x y = y) ∧
      fle (WasmCompatMin x y) x = true ∧ fle (WasmCompatMin x y) y = true ∧
      IsNaN (WasmCompatMin x y) = false) ∧
    ((WasmCompatMax x y = x ∨ WasmCompatMax x y = y) ∧
      fge (WasmCompatMax x y) x = true ∧ fge (WasmCompatMax x y) y = true ∧
      IsNaN (WasmCompatMax x y) = false) := by
  have hnx := key_neg_Inf_le x hx
  have hny := key_neg_Inf_le y hy
  have hpx := key_le_pos_Inf x hx
  have hpy := key_le_pos_Inf y hy
  constructor
  · unfold WasmCompatMin
    simp only [hx, hy, Bool.or_self, Bool.false_eq_true, if_false]
    by_cases hi : (IsInf x (-1) || IsInf y (-1)) = true
    · rw [if_pos hi]
      refine ⟨?_, ?_, ?_, isNaN_Inf _ _⟩
      · rw [Bool.or_eq_true, IsInf_neg_iff, IsInf_neg_iff] at hi
        rcases hi with hi | hi
        · exact Or.inl hi.symm
        · exact Or.inr hi.symm
      · simp [fle, isNaN_Inf, hx, hnx]
      · simp [fle, isNaN_Inf, hy, hny]
    · rw [if_neg hi]
      by_cases hz : (feq x (zero Fmt.b64) && feq x y) = true
      · rw [if_pos hz]
        have hk : key x = key y := by
          rw [Bool.and_eq_true] at hz
          have := hz.2
          simpa [feq, hx, hy] using this
        cases hs : Signbit x <;> simp [fle, hx, hy, hk]
      · rw [if_neg hz]
        by_cases hl : flt x y = true
        · rw [if_pos hl]
          have hk : key x < key y := by simpa [flt, hx, hy] using hl
          simp [fle, hx, hy, Int.le_of_lt hk]
        · rw [if_neg hl]
          have hk : key y ≤ key x := by simpa [flt, hx, hy] using hl
          simp [fle, hx, hy, hk]
  · unfold WasmCompatMax
    simp only [hx, hy, Bool.or_self, Bool.false_eq_true, if_false]
    by_cases hi : (IsInf x 1 || IsInf y 1) = true
    · rw [if_pos hi]
      refine ⟨?_, ?_, ?_, isNaN_Inf _ _⟩
      · rw [Bool.or_eq_true, IsInf_pos_iff, IsInf_pos_iff] at hi
        rcases hi with hi | hi
        · exact Or.inl hi.symm
        · exact Or.inr hi.symm
      · simp [fge, fle, isNaN_Inf, hx, hpx]
      · simp [fge, fle, isNaN_Inf, hy, hpy]
    · rw [if_neg hi]
      by_cases hz : (feq x (zero Fmt.b64) && feq x y) = true
      · rw [if_pos hz]
        have hk : key x = key y := by
          rw [Bool.and_eq_true] at hz
          have := hz.2
          simpa [feq, hx, hy] using this
        cases hs : Signbit x <;> simp [fge, fle, hx, hy, hk]
      · rw [if_neg hz]
        by_cases hl : fgt x y = true
        · rw [if_pos hl]
          have hk : key y < key x := by simpa [fgt, flt, hx, hy] using hl
          simp [fge, fle, hx, hy, Int.le_of_lt hk]
        · rw [if_neg hl]
          have hk : key x ≤ key y := by simpa [fgt, flt, hx, hy] using hl
          simp [fge, fle, hx, hy, hk]

/-- Witness for C8 at `(+0.0, -Inf)`. -/
theorem C8_ordinary_comparison_witness :
    IsNaN (zero Fmt.b64) = false ∧ IsNaN (Inf Fmt.b64 (-1)) = false ∧
    (((WasmCompatMin (zero Fmt.b64) (Inf Fmt.b64 (-1)) = zero Fmt.b64 ∨
        WasmCompatMin (zero Fmt.b64) (Inf Fmt.b64 (-1)) = Inf Fmt.b64 (-1)) ∧
      fle (WasmCompatMin (zero Fmt.b64) (Inf Fmt.b64 (-1))) (zero Fmt.b64) = true ∧
      fle (WasmCompatMin (zero Fmt.b64) (Inf Fmt.b64 (-1))) (Inf Fmt.b64 (-1)) = true ∧
      IsNaN (WasmCompatMin (zero Fmt.b64) (Inf Fmt.b64 (-1))) = false) ∧
     ((WasmCompatMax (zero Fmt.b64) (Inf Fmt.b64 (-1)) = zero Fmt.b64 ∨
        WasmCompatMax (zero Fmt.b64) (Inf Fmt.b64 (-1)) = Inf Fmt.b64 (-1)) ∧
      fge (WasmCompatMax (zero Fmt.b64) (Inf Fmt.b64 (-1))) (zero Fmt.b64) = true ∧
      fge (WasmCompatMax (zero Fmt.b64) (Inf Fmt.b64 (-1))) (Inf Fmt.b64 (-1)) = true ∧
      IsNaN (WasmCompatMax (zero Fmt.b64) (Inf Fmt.b64 (-1))) = false)) :=
  ⟨by decide, by decide,
    C8_ordinary_comparison (zero Fmt.b64) (Inf Fmt.b64 (-1)) (by decide) (by decide)⟩

theorem key_eq_zero_iff {f : Fmt} (x : FP f) : key x = 0 ↔ isZero x = true := by
  rw [← mag_eq_zero_iff]
  unfold key
  split <;> omega

/-- The guard `x == 0 && x == y` holds exactly when both operands are zeros. -/
theorem zeroCase_iff {f : Fmt} (x y : FP f) (hx : IsNaN x = false) (hy : IsNaN y = false) :
    (feq x (zero f) && feq x y) = true ↔ isZero x = true ∧ isZero y = true := by
  rw [Bool.and_eq_true, feq_zero_iff x hx, ← key_eq_zero_iff x, ← key_eq_zero_iff y]
  unfold feq
  simp only [hx, hy, Bool.not_false, Bool.and_self, Bool.true_and, decide_eq_true_eq]
  constructor
  · rintro ⟨h1, h2⟩
    exact ⟨h1, by omega⟩
  · rintro ⟨h1, h2⟩
    exact ⟨h1, by omega⟩

/-- Two zeros of the same sign are bit-identical. -/
theorem zero_eq_of_sign_eq {f : Fmt} (x y : FP f) (hx : isZero x = true)
    (hy : isZero y = true) (hs : x.sign = y.sign) : x = y := by
  rw [eq_zero_of_isZero x hx, eq_zero_of_isZero y hy, hs]

/-- C9 (commutativity): for all `x`, `y`, NaNs of any payload, infinities and signed
zeros included, `WasmCompatMin x y` and `WasmCompatMin y x` have the same bit pattern,
and so have `WasmCompatMax x y` and `WasmCompatMax y x`. -/
theorem C9_commutativity (x y : F64) :
    WasmCompatMin x y = WasmCompatMin y x ∧ WasmCompatMax x y = WasmCompatMax y x := by
  by_cases hn : (IsNaN x || IsNaN y) = true
  · have hn2 : (IsNaN y || IsNaN x) = true := by rw [Bool.or_comm]; exact hn
    unfold WasmCompatMin WasmCompatMax
    rw [if_pos hn, if_pos hn, if_pos hn2, if_pos hn2]
    exact ⟨rfl, rfl⟩
  have hn2 : ¬ (IsNaN y || IsNaN x) = true := by rw [Bool.or_comm]; exact hn
  have hx : IsNaN x = false := by
    cases h : IsNaN x <;> simp [h] at hn ⊢
  have hy : IsNaN y = false := by
    cases h : IsNaN y <;> simp [h] at hn ⊢
  have key_case : ∀ a b : F64, IsNaN a = false → IsNaN b = false →
      ¬ (isZero a = true ∧ isZero b = true) → flt a b = false → flt b a = false →
      a = b := by
    intro a b ha hb hz h1 h2
    have k1 : ¬ key a < key b := by simpa [flt, ha, hb] using h1
    have k2 : ¬ key b < key a := by simpa [flt, ha, hb] using h2
    have hk : key a = key b := by omega
    cases hza : isZero a
    · exact eq_of_key_eq a b hk hza
    · exact absurd ⟨hza, (key_eq_zero_iff b).mp (by rw [← hk]; exact (key_eq_zero_iff a).mpr hza)⟩ hz
  have asym : ∀ a b : F64, flt a b = true → flt b a = false := by
    intro a b h
    unfold flt at h ⊢
    simp only [Bool.and_eq_true, Bool.not_eq_true', decide_eq_true_eq] at h
    simp only [h.1.1, h.1.2, Bool.not_false, Bool.and_self, Bool.true_and, decide_eq_false_iff_not]
    omega
  constructor
  · unfold WasmCompatMin
    rw [if_neg hn, if_neg hn2]
    by_cases hi : (IsInf x (-1) || IsInf y (-1)) = true
    · have hi2 : (IsInf y (-1) || IsInf x (-1)) = true := by rw [Bool.or_comm]; exact hi
      rw [if_pos hi, if_pos hi2]
    have hi2 : ¬ (IsInf y (-1) || IsInf x (-1)) = true := by rw [Bool.or_comm]; exact hi
    rw [if_neg hi, if_neg hi2]
    by_cases hz : isZero x = true ∧ isZero y = true
    · rw [if_pos ((zeroCase_iff x y hx hy).mpr hz), if_pos ((zeroCase_iff y x hy hx).mpr hz.symm)]
      unfold Signbit
      cases hsx : x.sign <;> cases hsy : y.sign <;>
        simp only [Bool.false_eq_true, if_false, if_true]
      · exact zero_eq_of_sign_eq y x hz.2 hz.1 (by rw [hsx, hsy])
      · exact zero_eq_of_sign_eq x y hz.1 hz.2 (by rw [hsx, hsy])
    · rw [if_neg (mt (zeroCase_iff x y hx hy).mp hz),
        if_neg (mt (zeroCase_iff y x hy hx).mp (fun h => hz h.symm))]
      cases h1 : flt x y <;> cases h2 : flt y x <;>
        simp only [Bool.false_eq_true, if_false, if_true]
      · exact (key_case x y hx hy hz h1 h2).symm
      · rw [asym x y h1] at h2
        exact Bool.noConfusion h2
  · unfold WasmCompatMax
    rw [if_neg hn, if_neg hn2]
    by_cases hi : (IsInf x 1 || IsInf y 1) = true
    · have hi2 : (IsInf y 1 || IsInf x 1) = true := by rw [Bool.or_comm]; exact hi
      rw [if_pos hi, if_pos hi2]
    have hi2 : ¬ (IsInf y 1 || IsInf x 1) = true := by rw [Bool.or_comm]; exact hi
    rw [if_neg hi, if_neg hi2]
    by_cases hz : isZero x = true ∧ isZero y = true
    · rw [if_pos ((zeroCase_iff x y hx hy).mpr hz), if_pos ((zeroCase_iff y x hy hx).mpr hz.symm)]
      unfold Signbit
      cases hsx : x.sign <;> cases hsy : y.sign <;>
        simp only [Bool.false_eq_true, if_false, if_true]
      · exact zero_eq_of_sign_eq x y hz.1 hz.2 (by rw [hsx, hsy])
      · exact zero_eq_of_sign_eq y x hz.2 hz.1 (by rw [hsx, hsy])
    · rw [if_neg (mt (zeroCase_iff x y hx hy).mp hz),
        if_neg (mt (zeroCase_iff y x hy hx).mp (fun h => hz h.symm))]
      unfold fgt
      cases h1 : flt x y <;> cases h2 : flt y x <;>
        simp only [Bool.false_eq_true, if_false, if_true]
      · exact (key_case x y hx hy hz h1 h2).symm
      · rw [asym x y h1] at h2
        exact Bool.noConfusion h2

/-- C10 (idempotence): for every non-NaN `x`, signed zeros and infinities included,
`WasmCompatMin x x` and `WasmCompatMax x x` are bit-identical to `x`; and for a NaN `x`
`WasmCompatMin x x` is a NaN. -/
theorem C10_idempotence (x : F64) :
    (IsNaN x = false → WasmCompatMin x x = x ∧ WasmCompatMax x x = x) ∧
    (IsNaN x = true → IsNaN (WasmCompatMin x x) = true) := by
  constructor
  · intro hx
    have hl : flt x x = false := by simp [flt]
    unfold WasmCompatMin WasmCompatMax fgt
    simp only [hx, Bool.or_self, Bool.false_eq_true, if_false, hl, ite_self]
    constructor
    · by_cases hi : IsInf x (-1) = true
      · rw [if_pos hi]
        exact ((IsInf_neg_iff x).mp hi).symm
      · rw [if_neg hi]
    · by_cases hi : IsInf x 1 = true
      · rw [if_pos hi]
        exact ((IsInf_pos_iff x).mp hi).symm
      · rw [if_neg hi]
  · intro hx
    exact (nan_operand_gives_nan x x (Or.inl hx)).1

/-- Witness for C10 at `x = -0.0`. -/
theorem C10_idempotence_witness :
    IsNaN (negZero Fmt.b64) = false ∧
    (WasmCompatMin (negZero Fmt.b64) (negZero Fmt.b64) = negZero Fmt.b64 ∧
     WasmCompatMax (negZero Fmt.b64) (negZero Fmt.b64) = negZero Fmt.b64) :=
  ⟨by decide, (C10_idempotence (negZero Fmt.b64)).1 (by decide)⟩

/-! ## Rounding to nearest even -/

theorem shiftOf_ge (f : Fmt) (n : Nat) : f.qshift ≤ shiftOf f n := by
  unfold shiftOf
  omega

theorem lt_pow_shiftOf (f : Fmt) (n : Nat) : n < 2 ^ (shiftOf f n + f.mbits + 1) := by
  have h1 : n < 2 ^ (n.log2 + 1) := Nat.lt_log2_self
  have h2 : n.log2 + 1 ≤ shiftOf f n + f.mbits + 1 := by
    unfold shiftOf
    omega
  exact lt_of_lt_of_le h1 (Nat.pow_le_pow_right (by decide) h2)

theorem pow_le_of_shiftOf_gt (f : Fmt) (n : Nat) (h : f.qshift < shiftOf f n) :
    2 ^ (shiftOf f n + f.mbits) ≤ n := by
  have hlog : shiftOf f n + f.mbits = n.log2 := by
    unfold shiftOf at h ⊢
    omega
  have hn : n ≠ 0 := by
    rintro rfl
    rw [Nat.log2_zero] at hlog
    have := shiftOf_ge f 0
    omega
  rw [hlog]
  exact Nat.log2_self_le hn

theorem div_mod_cases (q P : Nat) (hP : 0 < P) (hq : q ≤ 2 * P) :
    (q / P = 0 ∧ q % P = q ∧ q < P) ∨ (q / P = 1 ∧ q % P + P = q ∧ P ≤ q) ∨
    (q / P = 2 ∧ q % P = 0 ∧ q = 2 * P) := by
  have h1 := Nat.div_add_mod q P
  have h2 := Nat.mod_lt q hP
  have h3 : q / P ≤ 2 := Nat.div_le_of_le_mul (by omega)
  obtain ⟨d, hd⟩ : ∃ d, q / P = d := ⟨_, rfl⟩
  rw [hd] at h1 h3 ⊢
  have : d = 0 ∨ d = 1 ∨ d = 2 := by omega
  rcases this with rfl | rfl | rfl
  · left; simp at h1; omega
  · right; left; simp at h1; omega
  · right; right; omega

theorem roundSig_ge (n k : Nat) : n / 2 ^ k ≤ roundSig n k := by
  unfold roundSig
  simp only []
  split <;> omega

theorem roundSig_le (n k : Nat) : roundSig n k ≤ n / 2 ^ k + 1 := by
  unfold roundSig
  simp only []
  split <;> omega

theorem roundSig_exact (n k : Nat) (h : n % 2 ^ k = 0) : roundSig n k = n / 2 ^ k := by
  have hp := two_pow_pos (k - 1)
  unfold roundSig
  simp only [h]
  rw [if_neg]
  rintro (h1 | h1) <;> omega

/-- Quotient bounds for the shift chosen by `shiftOf`. -/
theorem quot_bounds (f : Fmt) (n : Nat) :
    n / 2 ^ shiftOf f n < 2 ^ (f.mbits + 1) ∧
    (f.qshift < shiftOf f n → 2 ^ f.mbits ≤ n / 2 ^ shiftOf f n) := by
  constructor
  · rw [Nat.div_lt_iff_lt_mul (two_pow_pos _), ← Nat.pow_add]
    have := lt_pow_shiftOf f n
    rwa [show f.mbits + 1 + shiftOf f n = shiftOf f n + f.mbits + 1 by omega]
  · intro h
    rw [Nat.le_div_iff_mul_le (two_pow_pos _), ← Nat.pow_add]
    have := pow_le_of_shiftOf_gt f n h
    rwa [show f.mbits + shiftOf f n = shiftOf f n + f.mbits by omega]

/-- Magnitude of the datum assembled from a shift `k` and a significand `q` of at most
`mbits + 2` bits, as done at the end of `roundTo`. -/
theorem mag_pack_round (f : Fmt) (s : Bool) (k q : Nat) (hk : f.qshift ≤ k)
    (hq : q ≤ 2 ^ (f.mbits + 1)) (hlow : f.qshift < k → 2 ^ f.mbits ≤ q)
    (he : (k - f.qshift) + q / 2 ^ f.mbits < f.emax) :
    mag (pack f s ((k - f.qshift) + q / 2 ^ f.mbits) (q % 2 ^ f.mbits)) = q * 2 ^ k := by
  have hP := two_pow_pos f.mbits
  have hem := emax_lt f
  have hexp := pack_exp f s ((k - f.qshift) + q / 2 ^ f.mbits) (q % 2 ^ f.mbits) (by omega)
  have hmant := pack_mant f s ((k - f.qshift) + q / 2 ^ f.mbits) (q % 2 ^ f.mbits)
    (Nat.mod_lt _ hP)
  unfold mag sig sh
  rw [hexp, hmant]
  rw [Nat.pow_succ] at hq
  rcases div_mod_cases q (2 ^ f.mbits) hP (by omega) with ⟨h1, h2, h3⟩ | ⟨h1, h2, h3⟩ | ⟨h1, h2, h3⟩
  · have hkq : k = f.qshift := by
      by_contra hne
      have := hlow (by omega)
      omega
    rw [h1, h2, hkq]
    simp
  · rw [h1]
    rw [if_neg (by omega)]
    have e1 : 2 ^ f.mbits + q % 2 ^ f.mbits = q := by omega
    have e2 : k - f.qshift + 1 - 1 + f.qshift = k := by omega
    rw [e1, e2]
  · rw [h1, h2, h3]
    rw [if_neg (by omega)]
    have e2 : k - f.qshift + 2 - 1 + f.qshift = k + 1 := by omega
    rw [e2, Nat.pow_succ]
    ring

theorem roundTo_def (f : Fmt) (s : Bool) (n : Nat) :
    roundTo f s n =
      if (shiftOf f n - f.qshift) + roundSig n (shiftOf f n) / 2 ^ f.mbits ≥ f.emax then
        pack f s f.emax 0
      else pack f s ((shiftOf f n - f.qshift) + roundSig n (shiftOf f n) / 2 ^ f.mbits)
        (roundSig n (shiftOf f n) % 2 ^ f.mbits) := rfl

theorem roundTo_sign (f : Fmt) (s : Bool) (n : Nat) : (roundTo f s n).sign = s := by
  rw [roundTo_def]
  split <;> rfl

theorem isNaN_roundTo (f : Fmt) (s : Bool) (n : Nat) : IsNaN (roundTo f s n) = false := by
  have hem := emax_lt f
  rw [roundTo_def]
  split
  · unfold IsNaN
    rw [pack_mant f _ _ _ (two_pow_pos _)]
    simp
  · unfold IsNaN
    rw [pack_exp f _ _ _ (by omega)]
    simp
    omega

/-- The exponent and fraction fields produced by rounding do not depend on the sign. -/
theorem mag_roundTo_sign (f : Fmt) (s t : Bool) (n : Nat) :
    mag (roundTo f s n) = mag (roundTo f t n) := by
  rw [roundTo_def, roundTo_def]
  split <;> rfl

theorem mag_pack_emax (f : Fmt) (s : Bool) :
    mag (pack f s f.emax 0) = 2 ^ f.mbits * 2 ^ (f.emax - 1 + f.qshift) := by
  have h2 := emax_pos f
  unfold mag sig sh
  rw [pack_exp f _ _ _ (emax_lt f), pack_mant f _ _ _ (two_pow_pos _), if_neg (by omega)]
  simp

/-- When the rounded exponent stays below the all-ones field the result is finite and
its magnitude is the rounded significand at the chosen shift. -/
theorem mag_roundTo_of_lt (f : Fmt) (s : Bool) (n : Nat)
    (he : (shiftOf f n - f.qshift) + roundSig n (shiftOf f n) / 2 ^ f.mbits < f.emax) :
    mag (roundTo f s n) = roundSig n (shiftOf f n) * 2 ^ shiftOf f n ∧
    isFinite (roundTo f s n) = true := by
  have hem := emax_lt f
  have hq := quot_bounds f n
  have hle := roundSig_le n (shiftOf f n)
  have hge := roundSig_ge n (shiftOf f n)
  rw [roundTo_def, if_neg (by omega)]
  constructor
  · exact mag_pack_round f s _ _ (shiftOf_ge f n) (by omega)
      (fun h => le_trans (hq.2 h) hge) he
  · unfold isFinite
    rw [pack_exp f _ _ _ (by omega)]
    simpa using he

/-- Rounding is exact on every representable magnitude: a significand of at most
`mbits + 1` bits at a weight not below the subnormal weight, below the overflow bound. -/
theorem roundTo_exact (f : Fmt) (s : Bool) (n M j : Nat) (hn : n = M * 2 ^ j)
    (hM : M < 2 ^ (f.mbits + 1)) (hj : f.qshift ≤ j)
    (hb : n < 2 ^ f.mbits * 2 ^ (f.emax - 1 + f.qshift)) :
    mag (roundTo f s n) = n ∧ isFinite (roundTo f s n) = true := by
  have hP := two_pow_pos f.mbits
  have h2 := emax_pos f
  have hk := shiftOf_ge f n
  have hq := quot_bounds f n
  have hkj : shiftOf f n ≤ j := by
    by_contra hc
    have h1 := pow_le_of_shiftOf_gt f n (by omega)
    have h3 : n < 2 ^ (f.mbits + 1 + j) := by
      rw [hn, Nat.pow_add]
      exact Nat.mul_lt_mul_of_pos_right hM (two_pow_pos _)
    have h4 := lt_of_le_of_lt h1 h3
    rw [Nat.pow_lt_pow_iff_right (by decide)] at h4
    omega
  have hdvd : 2 ^ shiftOf f n ∣ n := by
    have h0 : 2 ^ shiftOf f n ∣ M * 2 ^ j := Dvd.dvd.mul_left (Nat.pow_dvd_pow 2 hkj) M
    rwa [← hn] at h0
  have hmod : n % 2 ^ shiftOf f n = 0 := Nat.mod_eq_zero_of_dvd hdvd
  have hrs := roundSig_exact n (shiftOf f n) hmod
  have hqn : n / 2 ^ shiftOf f n * 2 ^ shiftOf f n = n := Nat.div_mul_cancel hdvd
  have he : (shiftOf f n - f.qshift) + roundSig n (shiftOf f n) / 2 ^ f.mbits < f.emax := by
    rw [hrs]
    have hq1 := hq.1
    rw [Nat.pow_succ] at hq1
    rcases div_mod_cases (n / 2 ^ shiftOf f n) (2 ^ f.mbits) hP (by omega) with
      ⟨h1, _, h3⟩ | ⟨h1, _, h3⟩ | ⟨_, _, h3⟩
    · have hkq : shiftOf f n = f.qshift := by
        by_contra hne
        have := hq.2 (by omega)
        omega
      rw [h1, hkq]
      omega
    · rw [h1]
      have h5 : 2 ^ f.mbits * 2 ^ shiftOf f n ≤ n := by
        have h0 := Nat.mul_le_mul_right (2 ^ shiftOf f n) h3
        rwa [hqn] at h0
      have h6 := lt_of_le_of_lt h5 hb
      have h7 := Nat.lt_of_mul_lt_mul_left h6
      rw [Nat.pow_lt_pow_iff_right (by decide)] at h7
      omega
    · omega
  have := mag_roundTo_of_lt f s n he
  rw [hrs, hqn] at this
  exact this

/-- Rounding never takes a magnitude below a power of two that it already reaches. -/
theorem mag_roundTo_ge (f : Fmt) (s : Bool) (n j : Nat) (hn : 2 ^ j ≤ n)
    (hj : f.mbits + f.qshift ≤ j) (hj2 : j ≤ f.mbits + (f.emax - 1 + f.qshift)) :
    2 ^ j ≤ mag (roundTo f s n) := by
  have hn0 : n ≠ 0 := by
    have := two_pow_pos j
    omega
  have hlog : j ≤ n.log2 := by
    by_contra hc
    have := (Nat.log2_lt hn0).mp (Nat.lt_of_not_le hc)
    omega
  have hk : shiftOf f n + f.mbits = n.log2 := by
    unfold shiftOf
    omega
  have hq : 2 ^ f.mbits ≤ n / 2 ^ shiftOf f n := by
    rw [Nat.le_div_iff_mul_le (two_pow_pos _), ← Nat.pow_add,
      show f.mbits + shiftOf f n = n.log2 by omega]
    exact Nat.log2_self_le hn0
  by_cases he : (shiftOf f n - f.qshift) + roundSig n (shiftOf f n) / 2 ^ f.mbits < f.emax
  · rw [(mag_roundTo_of_lt f s n he).1]
    calc 2 ^ j ≤ 2 ^ (f.mbits + shiftOf f n) := Nat.pow_le_pow_right (by decide) (by omega)
      _ = 2 ^ f.mbits * 2 ^ shiftOf f n := Nat.pow_add _ _ _
      _ ≤ roundSig n (shiftOf f n) * 2 ^ shiftOf f n :=
          Nat.mul_le_mul_right _ (le_trans hq (roundSig_ge _ _))
  · rw [roundTo_def, if_pos (by omega), mag_pack_emax, ← Nat.pow_add]
    exact Nat.pow_le_pow_right (by decide) hj2

/-! ## Representable magnitudes, `Floor` and `Ceil` -/

theorem unitOne_pos : 0 < unitOne := two_pow_pos _

theorem roundTo_rep (f : Fmt) (s : Bool) (v : Nat) (h : Rep f v) :
    mag (roundTo f s v) = v ∧ isFinite (roundTo f s v) = true := by
  obtain ⟨M, j, h1, h2, h3, h4⟩ := h
  exact roundTo_exact f s v M j h1 h2 h3 h4

theorem isFinite_iff {f : Fmt} (x : FP f) : isFinite x = true ↔ x.exp.val < f.emax := by
  unfold isFinite
  simp

theorem isNaN_of_isFinite {f : Fmt} (x : FP f) (h : isFinite x = true) : IsNaN x = false := by
  rw [isFinite_iff] at h
  unfold IsNaN
  simp
  omega

theorem isInfinite_of_isFinite {f : Fmt} (x : FP f) (h : isFinite x = true) :
    isInfinite x = false := by
  rw [isFinite_iff] at h
  unfold isInfinite
  simp
  omega

theorem qshift_le_sh {f : Fmt} (x : FP f) : f.qshift ≤ sh x := by
  unfold sh
  omega

theorem mag_lt_bound {f : Fmt} (x : FP f) (h : isFinite x = true) :
    mag x < 2 ^ f.mbits * 2 ^ (f.emax - 1 + f.qshift) := by
  rw [isFinite_iff] at h
  rw [← mag_pack_emax f false]
  exact mag_lt_of_exp_lt x _ (by rw [pack_exp f _ _ _ (emax_lt f)]; exact h)

theorem rep_mag {f : Fmt} (x : FP f) (h : isFinite x = true) : Rep f (mag x) :=
  ⟨sig x, sh x, rfl, sig_lt x, qshift_le_sh x, mag_lt_bound x h⟩

/-- A multiple of the last-place weight of a finite `x` that does not exceed `|x|` is
representable. -/
theorem rep_of_dvd_le {f : Fmt} (x : FP f) (h : isFinite x = true) (v : Nat)
    (hd : 2 ^ sh x ∣ v) (hv : v ≤ mag x) : Rep f v := by
  obtain ⟨M, hM⟩ := hd
  refine ⟨M, sh x, by rw [hM, Nat.mul_comm], ?_, qshift_le_sh x,
    lt_of_le_of_lt hv (mag_lt_bound x h)⟩
  have h1 : M * 2 ^ sh x ≤ sig x * 2 ^ sh x := by
    rw [Nat.mul_comm M, ← hM]
    exact hv
  exact lt_of_le_of_lt (Nat.le_of_mul_le_mul_right h1 (two_pow_pos _)) (sig_lt x)

theorem fmt_one_bounds (f : Fmt) :
    f.qshift ≤ 1074 ∧ 1075 < f.emax - 1 + f.qshift ∧ f.mbits + f.qshift ≤ 1074 ∧
    1075 ≤ f.mbits + (f.emax - 1 + f.qshift) := by
  cases f <;> decide

/-- An integer of at most `2^mbits` is representable. -/
theorem rep_mul_one (f : Fmt) (T : Nat) (hT : T ≤ 2 ^ f.mbits) : Rep f (T * unitOne) := by
  have hb := fmt_one_bounds f
  refine ⟨T, 1075, rfl, ?_, by omega, ?_⟩
  · rw [Nat.pow_succ]
    have := two_pow_pos f.mbits
    omega
  · calc T * unitOne ≤ 2 ^ f.mbits * 2 ^ 1075 := Nat.mul_le_mul_right _ hT
      _ < 2 ^ f.mbits * 2 ^ (f.emax - 1 + f.qshift) :=
          Nat.mul_lt_mul_of_pos_left (Nat.pow_lt_pow_right (by decide) hb.2.1) (two_pow_pos _)

/-- Half of an integer of at most `2^mbits` is representable. -/
theorem rep_mul_half (f : Fmt) (T : Nat) (hT : T ≤ 2 ^ f.mbits) : Rep f (T * 2 ^ 1074) := by
  have hb := fmt_one_bounds f
  refine ⟨T, 1074, rfl, ?_, by omega, ?_⟩
  · rw [Nat.pow_succ]
    have := two_pow_pos f.mbits
    omega
  · calc T * 2 ^ 1074 ≤ 2 ^ f.mbits * 2 ^ 1074 := Nat.mul_le_mul_right _ hT
      _ < 2 ^ f.mbits * 2 ^ (f.emax - 1 + f.qshift) :=
          Nat.mul_lt_mul_of_pos_left (Nat.pow_lt_pow_right (by decide) (by omega))
            (two_pow_pos _)

theorem floorUnits_le (n : Nat) : floorUnits n ≤ n := Nat.div_mul_le_self n unitOne

theorem ceilUnits_eq (n : Nat) :
    ceilUnits n = if n % unitOne = 0 then n else (n / unitOne + 1) * unitOne := by
  have hO := unitOne_pos
  have h1 := Nat.div_add_mod n unitOne
  have h2 := Nat.mod_lt n hO
  unfold ceilUnits
  generalize unitOne = O at *
  generalize hp : O * (n / O) = p at h1
  have hp2 : n / O * O = p := by rw [Nat.mul_comm]; exact hp
  have hp3 : (n / O + 1) * O = p + O := by rw [Nat.add_mul, hp2, Nat.one_mul]
  have hp4 : (n / O + 1 + 1) * O = p + O + O := by rw [Nat.add_mul, hp3, Nat.one_mul]
  split
  · rw [Nat.div_eq_of_lt_le (k := n / O) (by omega) (by omega)]
    omega
  · rw [Nat.div_eq_of_lt_le (k := n / O + 1) (by omega) (by omega)]

theorem floorUnits_of_mod_zero (n : Nat) (h : n % unitOne = 0) : floorUnits n = n := by
  unfold floorUnits
  exact Nat.div_mul_cancel (Nat.dvd_of_mod_eq_zero h)

/-- A finite datum whose last-place weight is at least one is an integer. -/
theorem mag_mod_one_of_sh_ge {f : Fmt} (x : FP f) (h : 1075 ≤ sh x) :
    mag x % unitOne = 0 := by
  apply Nat.mod_eq_zero_of_dvd
  unfold mag unitOne
  exact Dvd.dvd.mul_left (Nat.pow_dvd_pow 2 h) _

/-- A finite datum whose last-place weight is below one is smaller than `2^mbits`. -/
theorem mag_div_one_lt {f : Fmt} (x : FP f) (h : sh x < 1075) :
    mag x / unitOne < 2 ^ f.mbits := by
  rw [Nat.div_lt_iff_lt_mul unitOne_pos]
  have h1 : sh x + 1 ≤ 1075 := h
  calc mag x = sig x * 2 ^ sh x := rfl
    _ < 2 ^ (f.mbits + 1) * 2 ^ sh x := Nat.mul_lt_mul_of_pos_right (sig_lt x) (two_pow_pos _)
    _ = 2 ^ f.mbits * 2 ^ (sh x + 1) := by rw [Nat.pow_succ, Nat.pow_succ]; ring
    _ ≤ 2 ^ f.mbits * unitOne :=
        Nat.mul_le_mul_left _ (Nat.pow_le_pow_right (by decide) h1)

theorem pow_sh_dvd_floorUnits {f : Fmt} (x : FP f) : 2 ^ sh x ∣ floorUnits (mag x) := by
  rcases Nat.lt_or_ge (sh x) 1075 with h | h
  · unfold floorUnits unitOne
    exact Dvd.dvd.mul_left (Nat.pow_dvd_pow 2 (Nat.le_of_lt h)) _
  · rw [floorUnits_of_mod_zero _ (mag_mod_one_of_sh_ge x h)]
    exact Dvd.intro_left _ rfl

theorem rep_floorUnits {f : Fmt} (x : FP f) (h : isFinite x = true) :
    Rep f (floorUnits (mag x)) :=
  rep_of_dvd_le x h _ (pow_sh_dvd_floorUnits x) (floorUnits_le _)

theorem rep_ceilUnits {f : Fmt} (x : FP f) (h : isFinite x = true) :
    Rep f (ceilUnits (mag x)) := by
  rw [ceilUnits_eq]
  split
  · exact rep_mag x h
  · rename_i hne
    have hsh : sh x < 1075 := by
      by_contra hc
      exact hne (mag_mod_one_of_sh_ge x (by omega))
    exact rep_mul_one f _ (mag_div_one_lt x hsh)

theorem ceilUnits_zero : ceilUnits 0 = 0 := by
  rw [ceilUnits_eq, if_pos (Nat.zero_mod _)]

theorem floorUnits_zero : floorUnits 0 = 0 := by
  unfold floorUnits
  simp

/-- `math.Floor` on a finite datum: the sign is kept, the result is finite, and the
magnitude is rounded up to an integer for a negative and down for a positive argument. -/
theorem Floor_spec {f : Fmt} (x : FP f) (h : isFinite x = true) :
    (Floor x).sign = x.sign ∧ isFinite (Floor x) = true ∧
    mag (Floor x) = if x.sign then ceilUnits (mag x) else floorUnits (mag x) := by
  unfold Floor
  by_cases hz : isZero x = true
  · have h0 := (mag_eq_zero_iff x).mpr hz
    have hc : (isZero x || IsNaN x || IsInf x 0) = true := by simp [hz]
    rw [if_pos hc]
    refine ⟨rfl, h, ?_⟩
    rw [h0, ceilUnits_zero, floorUnits_zero]
    simp
  · have hi : IsInf x 0 = false := by
      unfold IsInf
      rw [isInfinite_of_isFinite x h]
      simp
    rw [Bool.not_eq_true] at hz
    simp only [hz, isNaN_of_isFinite x h, hi, Bool.or_self, Bool.false_eq_true, if_false]
    cases hs : x.sign
    · simp only [Bool.false_eq_true, if_false]
      exact ⟨roundTo_sign _ _ _, (roundTo_rep f _ _ (rep_floorUnits x h)).2,
        (roundTo_rep f _ _ (rep_floorUnits x h)).1⟩
    · simp only [if_true]
      exact ⟨roundTo_sign _ _ _, (roundTo_rep f _ _ (rep_ceilUnits x h)).2,
        (roundTo_rep f _ _ (rep_ceilUnits x h)).1⟩

theorem mag_fneg {f : Fmt} (x : FP f) : mag (fneg x) = mag x := rfl

theorem isFinite_fneg {f : Fmt} (x : FP f) : isFinite (fneg x) = isFinite x := rfl

theorem mag_Abs {f : Fmt} (x : FP f) : mag (Abs x) = mag x := rfl

theorem isNaN_Abs {f : Fmt} (x : FP f) : IsNaN (Abs x) = IsNaN x := rfl

theorem key_Abs {f : Fmt} (x : FP f) : key (Abs x) = (mag x : Int) := by
  unfold key
  simp [Abs, mag_Abs]
  rfl

/-- `math.Ceil` on a finite datum: the sign is kept, the result is finite, and the
magnitude is rounded down to an integer for a negative and up for a positive argument. -/
theorem Ceil_spec {f : Fmt} (x : FP f) (h : isFinite x = true) :
    (Ceil x).sign = x.sign ∧ isFinite (Ceil x) = true ∧
    mag (Ceil x) = if x.sign then floorUnits (mag x) else ceilUnits (mag x) := by
  have hF := Floor_spec (fneg x) (by rw [isFinite_fneg]; exact h)
  unfold Ceil
  rw [mag_fneg, isFinite_fneg]
  refine ⟨?_, hF.2.1, ?_⟩
  · show (!(Floor (fneg x)).sign) = x.sign
    rw [hF.1]
    show (!(!x.sign)) = x.sign
    simp
  · rw [hF.2.2, mag_fneg]
    show (if (!x.sign) = true then _ else _) = _
    cases x.sign <;> simp

theorem mag_roundTo_zero (f : Fmt) (s : Bool) : mag (roundTo f s 0) = 0 :=
  (roundTo_rep f s 0 ⟨0, f.qshift, by simp, two_pow_pos _, le_refl _,
    Nat.mul_pos (two_pow_pos _) (two_pow_pos _)⟩).1

/-- Subtraction of finite data: never a NaN, and the magnitude of the result is the
rounding of the exact absolute difference. -/
theorem fsub_spec {f : Fmt} (x y : FP f) (hx : isFinite x = true) (hy : isFinite y = true) :
    IsNaN (fsub x y) = false ∧
    mag (fsub x y) = mag (roundTo f false (key x - key y).natAbs) := by
  unfold fsub
  simp only [isNaN_of_isFinite x hx, isNaN_of_isFinite y hy, isInfinite_of_isFinite x hx,
    isInfinite_of_isFinite y hy, Bool.or_self, Bool.false_eq_true, if_false]
  split
  · rename_i hd
    rw [hd]
    refine ⟨?_, ?_⟩
    · unfold IsNaN
      rw [pack_mant f _ _ _ (two_pow_pos _)]
      simp
    · rw [Int.natAbs_zero, mag_roundTo_zero]
      apply (mag_eq_zero_iff _).mpr
      unfold isZero
      rw [pack_mant f _ _ _ (two_pow_pos _), pack_exp f _ _ _ (two_pow_pos _)]
      simp
  · exact ⟨isNaN_roundTo _ _ _, mag_roundTo_sign _ _ _ _⟩

/-- Halving a finite integer of at most `2^mbits`: the sign is kept and the result is
the exact half. -/
theorem fhalf_spec {f : Fmt} (x : FP f) (hx : isFinite x = true) (T : Nat)
    (hT : T ≤ 2 ^ f.mbits) (hm : mag x = T * unitOne) :
    (fhalf x).sign = x.sign ∧ isFinite (fhalf x) = true ∧ mag (fhalf x) = T * 2 ^ 1074 := by
  have hhalf : mag x / 2 = T * 2 ^ 1074 := by
    rw [hm]
    unfold unitOne
    rw [Nat.pow_succ, ← Nat.mul_assoc, Nat.mul_div_cancel _ (by decide)]
  unfold fhalf
  simp only [isNaN_of_isFinite x hx, isInfinite_of_isFinite x hx, Bool.false_eq_true, if_false]
  rw [hhalf]
  exact ⟨roundTo_sign _ _ _, (roundTo_rep f _ _ (rep_mul_half f T hT)).2,
    (roundTo_rep f _ _ (rep_mul_half f T hT)).1⟩

/-! ## The `nearest` algorithm in an arbitrary format -/

theorem unitOne_eq_two_mul : unitOne = 2 * 2 ^ 1074 := by
  unfold unitOne
  rw [Nat.pow_succ, Nat.mul_comm]

theorem le_ceilUnits (n : Nat) : n ≤ ceilUnits n := by
  rw [ceilUnits_eq]
  split
  · exact le_refl _
  · have := Nat.lt_mul_div_succ n unitOne_pos
    rw [Nat.mul_comm] at this
    exact Nat.le_of_lt this

theorem floorUnits_eq_iff (v : Nat) : floorUnits v = v ↔ v % unitOne = 0 := by
  constructor
  · intro h
    have h1 := Nat.div_add_mod v unitOne
    unfold floorUnits at h
    rw [Nat.mul_comm] at h
    omega
  · exact floorUnits_of_mod_zero v

theorem ceilUnits_eq_iff (v : Nat) : ceilUnits v = v ↔ v % unitOne = 0 := by
  constructor
  · intro h
    by_contra hne
    rw [ceilUnits_eq, if_neg hne] at h
    have := Nat.lt_mul_div_succ v unitOne_pos
    rw [Nat.mul_comm] at this
    omega
  · intro h
    rw [ceilUnits_eq, if_pos h]

theorem half_mod_one (T : Nat) : (T * 2 ^ 1074) % unitOne = 0 ↔ T % 2 = 0 := by
  rw [unitOne_eq_two_mul, Nat.mul_mod_mul_right]
  have := two_pow_pos 1074
  constructor
  · intro h
    rcases Nat.mul_eq_zero.mp h with h | h
    · exact h
    · omega
  · intro h
    rw [h, Nat.zero_mul]

theorem key_eq_iff_of_sign {f : Fmt} (x y : FP f) (hs : x.sign = y.sign) :
    key x = key y ↔ mag x = mag y := by
  unfold key
  rw [hs]
  split <;> omega

/-- The parity test `Floor(h) == h` with `h = ceil / 2.0` succeeds exactly on even
integers. -/
theorem tie_parity {f : Fmt} (c : FP f) (hc : isFinite c = true) (T : Nat)
    (hT : T ≤ 2 ^ f.mbits) (hm : mag c = T * unitOne) :
    feq (Floor (fhalf c)) (fhalf c) = decide (T % 2 = 0) := by
  obtain ⟨_, hf, hmag⟩ := fhalf_spec c hc T hT hm
  obtain ⟨hs2, hf2, hmag2⟩ := Floor_spec (fhalf c) hf
  unfold feq
  rw [isNaN_of_isFinite _ hf, isNaN_of_isFinite _ hf2]
  simp only [Bool.not_false, Bool.and_self, Bool.true_and]
  congr 1
  rw [key_eq_iff_of_sign _ _ hs2, hmag2, hmag]
  apply propext
  split
  · rw [ceilUnits_eq_iff, half_mod_one]
  · rw [floorUnits_eq_iff, half_mod_one]

theorem natAbs_key_sub {f : Fmt} (x y : FP f) (hs : y.sign = x.sign) :
    (key x - key y).natAbs =
      if mag y ≤ mag x then mag x - mag y else mag y - mag x := by
  unfold key
  rw [hs]
  split <;> split <;> omega

theorem pow_sh_dvd_mag {f : Fmt} (x : FP f) : 2 ^ sh x ∣ mag x := Dvd.intro_left _ rfl

theorem pow_sh_dvd_ceilUnits {f : Fmt} (x : FP f) : 2 ^ sh x ∣ ceilUnits (mag x) := by
  rw [ceilUnits_eq]
  split
  · exact pow_sh_dvd_mag x
  · rename_i hne
    have hsh : sh x < 1075 := by
      by_contra hc
      exact hne (mag_mod_one_of_sh_ge x (by omega))
    unfold unitOne
    exact Dvd.dvd.mul_left (Nat.pow_dvd_pow 2 (Nat.le_of_lt hsh)) _

/-- The distance from a finite `x` down to the integer below its magnitude is computed
exactly by the floating-point subtraction. -/
theorem round_dist_floor {f : Fmt} (x : FP f) (h : isFinite x = true) (s : Bool) :
    mag (roundTo f s (mag x - floorUnits (mag x))) = mag x - floorUnits (mag x) :=
  (roundTo_rep f s _ (rep_of_dvd_le x h _
    (Nat.dvd_sub' (pow_sh_dvd_mag x) (pow_sh_dvd_floorUnits x)) (Nat.sub_le _ _))).1

/-- The distance from a finite `x` up to the integer above its magnitude is computed
exactly whenever it does not exceed `|x|`. -/
theorem round_dist_ceil {f : Fmt} (x : FP f) (h : isFinite x = true) (s : Bool)
    (hle : ceilUnits (mag x) - mag x ≤ mag x) :
    mag (roundTo f s (ceilUnits (mag x) - mag x)) = ceilUnits (mag x) - mag x :=
  (roundTo_rep f s _ (rep_of_dvd_le x h _
    (Nat.dvd_sub' (pow_sh_dvd_ceilUnits x) (pow_sh_dvd_mag x)) hle)).1

/-- A distance of at least one half is never rounded below one half. -/
theorem round_ge_half (f : Fmt) (s : Bool) (v : Nat) (hv : 2 ^ 1074 ≤ v) :
    2 ^ 1074 ≤ mag (roundTo f s v) := by
  have hb := fmt_one_bounds f
  exact mag_roundTo_ge f s v 1074 hv hb.2.2.1 (by omega)

/-- The two distances computed by the algorithm on a finite argument. -/
theorem dist_spec {f : Fmt} (x : FP f) (h : isFinite x = true) :
    IsNaN (Abs (fsub x (Ceil x))) = false ∧ IsNaN (Abs (fsub x (Floor x))) = false ∧
    key (Abs (fsub x (Ceil x))) =
      (mag (roundTo f false (if x.sign then mag x - floorUnits (mag x)
        else ceilUnits (mag x) - mag x)) : Int) ∧
    key (Abs (fsub x (Floor x))) =
      (mag (roundTo f false (if x.sign then ceilUnits (mag x) - mag x
        else mag x - floorUnits (mag x))) : Int) := by
  obtain ⟨cs, cf, cm⟩ := Ceil_spec x h
  obtain ⟨gs, gf, gm⟩ := Floor_spec x h
  obtain ⟨c1, c2⟩ := fsub_spec x (Ceil x) h cf
  obtain ⟨g1, g2⟩ := fsub_spec x (Floor x) h gf
  have hlo := floorUnits_le (mag x)
  have hhi := le_ceilUnits (mag x)
  refine ⟨by rw [isNaN_Abs]; exact c1, by rw [isNaN_Abs]; exact g1, ?_, ?_⟩
  · rw [key_Abs, c2, natAbs_key_sub x _ cs, cm]
    congr 3
    cases x.sign
    · simp only [Bool.false_eq_true, if_false]
      split <;> omega
    · simp only [if_true, hlo]
  · rw [key_Abs, g2, natAbs_key_sub x _ gs, gm]
    congr 3
    cases x.sign
    · simp only [Bool.false_eq_true, if_false, hlo, if_true]
    · simp only [if_true]
      split <;> omega

theorem flt_eq_decide {f : Fmt} (a b : FP f) (ha : IsNaN a = false) (hb : IsNaN b = false) :
    flt a b = decide (key a < key b) := by
  unfold flt
  rw [ha, hb]
  rfl

theorem feq_eq_decide {f : Fmt} (a b : FP f) (ha : IsNaN a = false) (hb : IsNaN b = false) :
    feq a b = decide (key a = key b) := by
  unfold feq
  rw [ha, hb]
  rfl

theorem fne_zero_of_not_isZero {f : Fmt} (x : FP f) (hn : IsNaN x = false)
    (hz : ¬ isZero x = true) : fne x (zero f) = true := by
  unfold fne
  cases hq : feq x (zero f)
  · rfl
  · exact absurd ((feq_zero_iff x hn).mp hq) hz

theorem rneUnits_zero : rneUnits 0 = 0 := by
  have := unitOne_pos
  unfold rneUnits
  simp [this]

/-- Which candidate the algorithm returns on a finite non-zero argument, in terms of
the exact distances `a` (down to the integer below `|x|`) and `b` (up to the integer
above `|x|`) after rounding. -/
theorem nearestGen_choice {f : Fmt} (x : FP f) (h : isFinite x = true)
    (hz : ¬ isZero x = true) :
    nearestGen x =
      if mag (roundTo f false (if x.sign then mag x - floorUnits (mag x)
            else ceilUnits (mag x) - mag x)) <
          mag (roundTo f false (if x.sign then ceilUnits (mag x) - mag x
            else mag x - floorUnits (mag x))) then Ceil x
      else if mag (roundTo f false (if x.sign then mag x - floorUnits (mag x)
            else ceilUnits (mag x) - mag x)) =
          mag (roundTo f false (if x.sign then ceilUnits (mag x) - mag x
            else mag x - floorUnits (mag x))) ∧
          feq (Floor (fhalf (Ceil x))) (fhalf (Ceil x)) = true then Ceil x
      else Floor x := by
  obtain ⟨d1, d2, d3, d4⟩ := dist_spec x h
  have hne := fne_zero_of_not_isZero x (isNaN_of_isFinite x h) hz
  unfold nearestGen
  simp only [hne, Bool.and_self, if_true]
  rw [flt_eq_decide _ _ d1 d2, feq_eq_decide _ _ d1 d2, d3, d4]
  simp only [Nat.cast_lt, Nat.cast_inj, decide_eq_true_eq, Bool.and_eq_true]

/-- Characterisation of the algorithm on finite arguments: the result is finite, keeps
the sign of the argument, and its magnitude is the argument's magnitude rounded to the
nearest integer with ties to even. -/
theorem nearestGen_spec {f : Fmt} (x : FP f) (h : isFinite x = true) :
    (nearestGen x).sign = x.sign ∧ isFinite (nearestGen x) = true ∧
    mag (nearestGen x) = rneUnits (mag x) := by
  by_cases hz : isZero x = true
  · have hfe : fne x (zero f) = false := by
      unfold fne
      rw [(feq_zero_iff x (isNaN_of_isFinite x h)).mpr hz]
      rfl
    have hx : nearestGen x = x := by
      unfold nearestGen
      simp [hfe]
    rw [hx, (mag_eq_zero_iff x).mpr hz, rneUnits_zero]
    exact ⟨rfl, h, rfl⟩
  obtain ⟨cs, cf, cm⟩ := Ceil_spec x h
  obtain ⟨gs, gf, gm⟩ := Floor_spec x h
  rw [nearestGen_choice x h hz]
  refine ⟨by split_ifs <;> assumption, by split_ifs <;> assumption, ?_⟩
  have hO := unitOne_pos
  have hOH := unitOne_eq_two_mul
  have hdm := Nat.div_add_mod (mag x) unitOne
  have hmod := Nat.mod_lt (mag x) hO
  have hfl : floorUnits (mag x) = mag x / unitOne * unitOne := rfl
  have hce := ceilUnits_eq (mag x)
  have hrn : rneUnits (mag x) =
      if 2 * (mag x % unitOne) < unitOne then mag x / unitOne * unitOne
      else if unitOne < 2 * (mag x % unitOne) then (mag x / unitOne + 1) * unitOne
      else if mag x / unitOne % 2 = 0 then mag x / unitOne * unitOne
      else (mag x / unitOne + 1) * unitOne := rfl
  have hA := round_dist_floor x h false
  have hB := round_dist_ceil x h false
  have hG := round_ge_half f false (ceilUnits (mag x) - mag x)
  have hT : mag x % unitOne ≠ 0 → mag x / unitOne < 2 ^ f.mbits := fun hne =>
    mag_div_one_lt x (by
      by_contra hc
      exact hne (mag_mod_one_of_sh_ge x (by omega)))
  have hpar := fun T hT hm => tie_parity (Ceil x) cf T hT hm
  have hsucc : (mag x / unitOne + 1) * unitOne = mag x / unitOne * unitOne + unitOne := by
    ring
  rw [hsucc] at hce hrn
  rw [Nat.mul_comm] at hdm
  cases hs : x.sign <;>
    simp only [hs, if_true, if_false, Bool.false_eq_true] at cm gm ⊢ <;>
    rw [hA, apply_ite mag, apply_ite mag, cm, gm, hrn] <;>
    by_cases ha : mag x % unitOne = 0
  · -- positive integer argument
    rw [if_pos ha] at hce
    clear hpar hT hA hsucc
    generalize (2 : Nat) ^ 1074 = H at *
    generalize unitOne = O at *
    split_ifs <;> omega
  · -- positive argument: `Ceil` is the integer above, `Floor` the integer below
    rw [if_neg ha] at hce
    have hp := hpar (mag x / unitOne + 1) (hT ha) (by rw [cm, hce, hsucc])
    rw [hp]
    simp only [decide_eq_true_eq]
    clear hp hpar hT hA hsucc
    generalize (2 : Nat) ^ 1074 = H at *
    generalize unitOne = O at *
    split_ifs <;> omega
  · -- negative integer argument
    rw [if_pos ha] at hce
    clear hpar hT hA hsucc
    generalize (2 : Nat) ^ 1074 = H at *
    generalize unitOne = O at *
    split_ifs <;> omega
  · -- negative argument: `Ceil` is the integer below in magnitude, `Floor` the one above
    rw [if_neg ha] at hce
    have hp := hpar (mag x / unitOne) (Nat.le_of_lt (hT ha)) (cm.trans hfl)
    rw [hp]
    simp only [decide_eq_true_eq]
    clear hp hpar hT hA hsucc
    generalize (2 : Nat) ^ 1074 = H at *
    generalize unitOne = O at *
    split_ifs <;> omega

/-! ## The two source functions against the format-generic algorithm -/

theorem nearestF64_eq_gen (x : F64) : WasmCompatNearestF64 x = nearestGen x := rfl

theorem eq_of_sign_mag {f : Fmt} (x y : FP f) (hs : x.sign = y.sign) (hm : mag x = mag y) :
    x = y :=
  FP.ext_fields hs (mag_inj x y hm).1 (mag_inj x y hm).2

theorem fmt_small_bound (f : Fmt) : 1077 < f.mbits + f.qshift + f.emax := by
  cases f <;> decide

/-- Rounding a magnitude of at most one never overflows. -/
theorem isFinite_roundTo_small (f : Fmt) (s : Bool) (v : Nat) (hv : v ≤ unitOne) :
    isFinite (roundTo f s v) = true := by
  have hb := fmt_one_bounds f
  have hs := fmt_small_bound f
  have hP := two_pow_pos f.mbits
  have hlog : v.log2 ≤ 1075 := by
    by_cases h0 : v = 0
    · rw [h0, Nat.log2_zero]
      omega
    · have : v.log2 < 1076 := by
        rw [Nat.log2_lt h0]
        exact lt_of_le_of_lt hv (Nat.pow_lt_pow_right (by decide) (by omega))
      omega
  have hk : shiftOf f v + f.mbits ≤ 1075 := by
    unfold shiftOf
    omega
  have hk2 := shiftOf_ge f v
  have hq := (quot_bounds f v).1
  have hr := roundSig_le v (shiftOf f v)
  rw [Nat.pow_succ] at hq
  have hd : roundSig v (shiftOf f v) / 2 ^ f.mbits ≤ 2 := Nat.div_le_of_le_mul (by omega)
  exact (mag_roundTo_of_lt f s v (by omega)).2

/-- Halving a finite datum gives a finite datum. -/
theorem isFinite_fhalf {f : Fmt} (c : FP f) (hc : isFinite c = true) :
    isFinite (fhalf c) = true := by
  have hb := fmt_one_bounds f
  unfold fhalf
  simp only [isNaN_of_isFinite c hc, isInfinite_of_isFinite c hc, Bool.false_eq_true, if_false]
  rcases Nat.lt_or_ge f.qshift (sh c) with h | h
  · have hrep : Rep f (mag c / 2) := by
      refine ⟨sig c, sh c - 1, ?_, sig_lt c, by omega, ?_⟩
      · unfold mag
        obtain ⟨j, hj⟩ : ∃ j, sh c = j + 1 := ⟨sh c - 1, by omega⟩
        rw [hj, Nat.pow_succ, ← Nat.mul_assoc, Nat.mul_div_cancel _ (by decide)]
        simp
      · exact lt_of_le_of_lt (Nat.div_le_self _ _) (mag_lt_bound c hc)
    exact (roundTo_rep f _ _ hrep).2
  · apply isFinite_roundTo_small
    have h1 : sh c = f.qshift := Nat.le_antisymm h (qshift_le_sh c)
    have h2 : mag c < 2 ^ (f.mbits + 1) * 2 ^ sh c :=
      Nat.mul_lt_mul_of_pos_right (sig_lt c) (two_pow_pos _)
    rw [← Nat.pow_add, h1] at h2
    have h3 : 2 ^ (f.mbits + 1 + f.qshift) ≤ unitOne :=
      Nat.pow_le_pow_right (by decide) (by omega)
    have h4 := Nat.div_le_self (mag c) 2
    omega

/-- Conversion of a finite datum whose magnitude is representable in the target format
is exact. -/
theorem convert_spec {f : Fmt} (g : Fmt) (y : FP f) (hy : isFinite y = true)
    (hr : Rep g (mag y)) :
    (convert g y).sign = y.sign ∧ isFinite (convert g y) = true ∧
    mag (convert g y) = mag y := by
  unfold convert
  simp only [isNaN_of_isFinite y hy, isInfinite_of_isFinite y hy, Bool.false_eq_true, if_false]
  exact ⟨roundTo_sign _ _ _, (roundTo_rep g _ _ hr).2, (roundTo_rep g _ _ hr).1⟩

/-- Every magnitude representable in binary32 is representable in binary64. -/
theorem rep_b64_of_b32 (v : Nat) (h : Rep Fmt.b32 v) : Rep Fmt.b64 v := by
  obtain ⟨M, j, h1, h2, h3, h4⟩ := h
  refine ⟨M, j, h1, ?_, ?_, ?_⟩
  · exact lt_of_lt_of_le h2 (Nat.pow_le_pow_right (by decide) (by decide))
  · exact le_trans (by decide) h3
  · refine lt_of_lt_of_le h4 ?_
    rw [← Nat.pow_add, ← Nat.pow_add]
    exact Nat.pow_le_pow_right (by decide) (by decide)

theorem toF64_spec (y : F32) (hy : isFinite y = true) :
    (toF64 y).sign = y.sign ∧ isFinite (toF64 y) = true ∧ mag (toF64 y) = mag y :=
  convert_spec Fmt.b64 y hy (rep_b64_of_b32 _ (rep_mag y hy))

/-- Going to binary64, taking `math.Floor` there and coming back is `Floor` in binary32. -/
theorem floor_via_f64 (y : F32) (hy : isFinite y = true) :
    toF32 (Floor (toF64 y)) = Floor y := by
  obtain ⟨s1, f1, m1⟩ := toF64_spec y hy
  obtain ⟨s2, f2, m2⟩ := Floor_spec (toF64 y) f1
  obtain ⟨s3, f3, m3⟩ := Floor_spec y hy
  have hm : mag (Floor (toF64 y)) = mag (Floor y) := by rw [m2, m3, s1, m1]
  obtain ⟨s4, _, m4⟩ := convert_spec Fmt.b32 (Floor (toF64 y)) f2 (by rw [hm]; exact rep_mag _ f3)
  exact eq_of_sign_mag _ _ (by rw [toF32, s4, s2, s1, s3]) (by rw [toF32, m4, hm])

/-- Going to binary64, taking `math.Ceil` there and coming back is `Ceil` in binary32. -/
theorem ceil_via_f64 (y : F32) (hy : isFinite y = true) :
    toF32 (Ceil (toF64 y)) = Ceil y := by
  obtain ⟨s1, f1, m1⟩ := toF64_spec y hy
  obtain ⟨s2, f2, m2⟩ := Ceil_spec (toF64 y) f1
  obtain ⟨s3, f3, m3⟩ := Ceil_spec y hy
  have hm : mag (Ceil (toF64 y)) = mag (Ceil y) := by rw [m2, m3, s1, m1]
  obtain ⟨s4, _, m4⟩ := convert_spec Fmt.b32 (Ceil (toF64 y)) f2 (by rw [hm]; exact rep_mag _ f3)
  exact eq_of_sign_mag _ _ (by rw [toF32, s4, s2, s1, s3]) (by rw [toF32, m4, hm])

/-- A finite binary32 distance keeps its NaN status and its key when widened. -/
theorem abs_toF64_spec (u : F32) (hu : isFinite u = true) :
    IsNaN (Abs (toF64 u)) = false ∧ IsNaN (Abs u) = false ∧
    key (Abs (toF64 u)) = key (Abs u) := by
  obtain ⟨_, f1, m1⟩ := toF64_spec u hu
  refine ⟨?_, ?_, ?_⟩
  · rw [isNaN_Abs]
    exact isNaN_of_isFinite _ f1
  · rw [isNaN_Abs]
    exact isNaN_of_isFinite _ hu
  · rw [key_Abs, key_Abs, m1]

theorem dist_le_one (n : Nat) :
    n - floorUnits n ≤ unitOne ∧ ceilUnits n - n ≤ unitOne := by
  have hO := unitOne_pos
  have hdm := Nat.div_add_mod n unitOne
  have hmod := Nat.mod_lt n hO
  have hfl : floorUnits n = n / unitOne * unitOne := rfl
  have hce := ceilUnits_eq n
  have hsucc : (n / unitOne + 1) * unitOne = n / unitOne * unitOne + unitOne := by ring
  rw [hsucc] at hce
  rw [Nat.mul_comm] at hdm
  generalize unitOne = O at *
  split_ifs at hce <;> omega

theorem isFinite_fsub_of_le {f : Fmt} (x y : FP f) (hx : isFinite x = true)
    (hy : isFinite y = true) (hd : (key x - key y).natAbs ≤ unitOne) :
    isFinite (fsub x y) = true := by
  unfold fsub
  simp only [isNaN_of_isFinite x hx, isNaN_of_isFinite y hy, isInfinite_of_isFinite x hx,
    isInfinite_of_isFinite y hy, Bool.or_self, Bool.false_eq_true, if_false]
  split
  · unfold isFinite
    rw [pack_exp f _ _ _ (two_pow_pos _)]
    have := emax_pos f
    simp
    omega
  · exact isFinite_roundTo_small f _ _ hd

/-- Both distances computed by the algorithm on a finite argument are finite. -/
theorem dist_finite {f : Fmt} (x : FP f) (h : isFinite x = true) :
    isFinite (fsub x (Ceil x)) = true ∧ isFinite (fsub x (Floor x)) = true := by
  obtain ⟨cs, cf, cm⟩ := Ceil_spec x h
  obtain ⟨gs, gf, gm⟩ := Floor_spec x h
  have hlo := floorUnits_le (mag x)
  have hhi := le_ceilUnits (mag x)
  have hd := dist_le_one (mag x)
  constructor
  · apply isFinite_fsub_of_le x _ h cf
    rw [natAbs_key_sub x _ cs, cm]
    cases x.sign <;> simp only [Bool.false_eq_true, if_false, if_true] <;> split <;> omega
  · apply isFinite_fsub_of_le x _ h gf
    rw [natAbs_key_sub x _ gs, gm]
    cases x.sign <;> simp only [Bool.false_eq_true, if_false, if_true] <;> split <;> omega

/-- On finite arguments `WasmCompatNearestF32`, which takes `Ceil`, `Floor` and `Abs` in
binary64, returns bit for bit what the algorithm gives when run entirely in binary32. -/
theorem nearestF32_eq_gen (x : F32) (h : isFinite x = true) :
    WasmCompatNearestF32 x = nearestGen x := by
  obtain ⟨_, cf, _⟩ := Ceil_spec x h
  obtain ⟨hu, hv⟩ := dist_finite x h
  obtain ⟨a1, a2, a3⟩ := abs_toF64_spec _ hu
  obtain ⟨b1, b2, b3⟩ := abs_toF64_spec _ hv
  have hflt : flt (Abs (toF64 (fsub x (Ceil x)))) (Abs (toF64 (fsub x (Floor x)))) =
      flt (Abs (fsub x (Ceil x))) (Abs (fsub x (Floor x))) := by
    rw [flt_eq_decide _ _ a1 b1, flt_eq_decide _ _ a2 b2, a3, b3]
  have hfeq : feq (Abs (toF64 (fsub x (Ceil x)))) (Abs (toF64 (fsub x (Floor x)))) =
      feq (Abs (fsub x (Ceil x))) (Abs (fsub x (Floor x))) := by
    rw [feq_eq_decide _ _ a1 b1, feq_eq_decide _ _ a2 b2, a3, b3]
  have hfl := floor_via_f64 _ (isFinite_fhalf _ cf)
  unfold WasmCompatNearestF32 nearestGen
  simp only []
  rw [ceil_via_f64 x h, floor_via_f64 x h, hflt, hfeq, hfl]

/-! ## Special values under `nearest` -/

theorem Floor_of_not_isFinite {f : Fmt} (x : FP f) (h : isFinite x = false) : Floor x = x := by
  have he : x.exp.val = f.emax := by
    have h1 := exp_le_emax x
    unfold isFinite at h
    simp at h
    omega
  have hc : (isZero x || IsNaN x || IsInf x 0) = true := by
    unfold IsNaN IsInf isInfinite
    simp only [he]
    by_cases hm : x.mant.val = 0
    · cases hs : x.sign <;> simp [hm]
    · simp [hm]
  unfold Floor
  rw [if_pos hc]

theorem Ceil_of_not_isFinite {f : Fmt} (x : FP f) (h : isFinite x = false) : Ceil x = x := by
  unfold Ceil
  rw [Floor_of_not_isFinite (fneg x) (by rw [isFinite_fneg]; exact h)]
  unfold fneg
  simp

theorem isFinite_NaN_false {f : Fmt} (x : FP f) (h : IsNaN x = true) : isFinite x = false := by
  unfold IsNaN at h
  unfold isFinite
  simp at h ⊢
  omega

theorem isNaN_convert {f : Fmt} (g : Fmt) (x : FP f) (h : IsNaN x = true) :
    IsNaN (convert g x) = true := by
  have hm := mbits_pos g
  have hp : 2 ^ (g.mbits - 1) + (x.mant.val * 2 ^ g.mbits / 2 ^ f.mbits) % 2 ^ (g.mbits - 1)
      < 2 ^ g.mbits := by
    have h1 := Nat.mod_lt (x.mant.val * 2 ^ g.mbits / 2 ^ f.mbits) (two_pow_pos (g.mbits - 1))
    have h2 : 2 ^ g.mbits = 2 * 2 ^ (g.mbits - 1) := by
      obtain ⟨j, hj⟩ : ∃ j, g.mbits = j + 1 := ⟨g.mbits - 1, by omega⟩
      rw [hj, Nat.pow_succ]
      simp [Nat.mul_comm]
    omega
  unfold convert
  rw [if_pos h]
  unfold IsNaN
  rw [pack_exp g _ _ _ (emax_lt g), pack_mant g _ _ _ hp]
  simp

theorem convert_infinite {f : Fmt} (g : Fmt) (x : FP f) (h : isInfinite x = true) :
    convert g x = pack g x.sign g.emax 0 := by
  have hn : IsNaN x = false := by
    unfold isInfinite at h
    unfold IsNaN
    simp at h ⊢
    intro _
    exact h.2
  unfold convert
  rw [hn, h]
  simp

theorem eq_pack_of_isInfinite {f : Fmt} (x : FP f) (h : isInfinite x = true) :
    x = pack f x.sign f.emax 0 := by
  unfold isInfinite at h
  simp at h
  exact FP.ext_fields rfl (by rw [pack_exp f _ _ _ (emax_lt f)]; exact h.1)
    (by rw [pack_mant f _ _ _ (two_pow_pos _)]; exact h.2)

theorem isInfinite_pack (f : Fmt) (s : Bool) : isInfinite (pack f s f.emax 0) = true := by
  unfold isInfinite
  rw [pack_exp f _ _ _ (emax_lt f), pack_mant f _ _ _ (two_pow_pos _)]
  simp

theorem isFinite_of_isInfinite {f : Fmt} (x : FP f) (h : isInfinite x = true) :
    isFinite x = false := by
  unfold isInfinite at h
  unfold isFinite
  simp at h ⊢
  omega

/-- The algorithm returns an infinite argument unchanged, in both source functions. -/
theorem nearest_infinite :
    (∀ x : F64, isInfinite x = true → WasmCompatNearestF64 x = x) ∧
    (∀ x : F32, isInfinite x = true → WasmCompatNearestF32 x = x) := by
  constructor
  · intro x h
    have hf := isFinite_of_isInfinite x h
    unfold WasmCompatNearestF64
    simp only []
    rw [Ceil_of_not_isFinite x hf, Floor_of_not_isFinite x hf]
    simp
  · intro x h
    have h64 : isInfinite (toF64 x) = true := by
      rw [toF64, convert_infinite _ x h]
      exact isInfinite_pack _ _
    have hf := isFinite_of_isInfinite _ h64
    have hback : toF32 (toF64 x) = x := by
      rw [toF32, convert_infinite _ _ h64, toF64, convert_infinite _ x h, pack_sign]
      exact (eq_pack_of_isInfinite x h).symm
    unfold WasmCompatNearestF32
    simp only []
    rw [Ceil_of_not_isFinite _ hf, Floor_of_not_isFinite _ hf, hback]
    simp

/-- The algorithm returns a NaN on a NaN argument, in both source functions. -/
theorem nearest_nan :
    (∀ x : F64, IsNaN x = true → IsNaN (WasmCompatNearestF64 x) = true) ∧
    (∀ x : F32, IsNaN x = true → IsNaN (WasmCompatNearestF32 x) = true) := by
  constructor
  · intro x h
    have hf := isFinite_NaN_false x h
    unfold WasmCompatNearestF64
    simp only []
    rw [Ceil_of_not_isFinite x hf, Floor_of_not_isFinite x hf]
    split_ifs <;> exact h
  · intro x h
    have h64 : IsNaN (toF64 x) = true := isNaN_convert _ x h
    have hf := isFinite_NaN_false _ h64
    have hback : IsNaN (toF32 (toF64 x)) = true := isNaN_convert _ _ h64
    unfold WasmCompatNearestF32
    simp only []
    rw [Ceil_of_not_isFinite _ hf, Floor_of_not_isFinite _ hf]
    split_ifs <;> first | exact h | exact hback

/-- The algorithm returns a zero argument unchanged, in both source functions. -/
theorem nearest_zero :
    (∀ x : F64, isZero x = true → WasmCompatNearestF64 x = x) ∧
    (∀ x : F32, isZero x = true → WasmCompatNearestF32 x = x) := by
  have hfe : ∀ {f : Fmt} (x : FP f), isZero x = true → fne x (zero f) = false := by
    intro f x hz
    have hn : IsNaN x = false := by
      unfold isZero at hz
      unfold IsNaN
      have := emax_pos f
      simp at hz ⊢
      omega
    unfold fne
    rw [(feq_zero_iff x hn).mpr hz]
    rfl
  constructor
  · intro x hz
    unfold WasmCompatNearestF64
    simp [hfe x hz]
  · intro x hz
    unfold WasmCompatNearestF32
    simp [hfe x hz]

/-! ## Exact rational values -/

theorem unitOne_rat_pos : (0 : ℚ) < (unitOne : ℚ) := by
  exact_mod_cast unitOne_pos

/-- Magnitude-level nearness of `rneUnits`: the result is a multiple of one within half
of one of the argument. -/
theorem rneUnits_near (n : Nat) :
    ∃ T, rneUnits n = T * unitOne ∧ 2 * n ≤ 2 * (T * unitOne) + unitOne ∧
      2 * (T * unitOne) ≤ 2 * n + unitOne := by
  have hO := unitOne_pos
  have hdm := Nat.div_add_mod n unitOne
  have hmod := Nat.mod_lt n hO
  have hsucc : (n / unitOne + 1) * unitOne = n / unitOne * unitOne + unitOne := by ring
  rw [Nat.mul_comm] at hdm
  unfold rneUnits
  simp only []
  split_ifs
  · exact ⟨n / unitOne, rfl, by omega, by omega⟩
  · exact ⟨n / unitOne + 1, rfl, by omega, by omega⟩
  · exact ⟨n / unitOne, rfl, by omega, by omega⟩
  · exact ⟨n / unitOne + 1, rfl, by omega, by omega⟩

/-- On a tie `rneUnits` picks the even neighbour. -/
theorem rneUnits_tie (n t : Nat) (h : 2 * n = (2 * t + 1) * unitOne) :
    rneUnits n = (if t % 2 = 0 then t else t + 1) * unitOne := by
  have hO := unitOne_pos
  have hOH := unitOne_eq_two_mul
  have hn : n = t * unitOne + 2 ^ 1074 := by
    have : (2 * t + 1) * unitOne = 2 * (t * unitOne) + unitOne := by ring
    rw [this] at h
    generalize t * unitOne = p at *
    generalize (2 : Nat) ^ 1074 = H at *
    omega
  have hH : 2 ^ 1074 < unitOne := by
    have := two_pow_pos 1074
    generalize (2 : Nat) ^ 1074 = H at *
    omega
  have hdiv : n / unitOne = t := by
    rw [hn, Nat.add_comm, Nat.add_mul_div_right _ _ hO, Nat.div_eq_of_lt hH, Nat.zero_add]
  have hmod : n % unitOne = 2 ^ 1074 := by
    rw [hn, Nat.add_comm, Nat.add_mul_mod_self_right, Nat.mod_eq_of_lt hH]
  unfold rneUnits
  simp only [hdiv, hmod]
  rw [if_neg (by rw [hOH]; omega), if_neg (by rw [hOH]; omega)]
  split <;> simp [*]

/-- Small magnitudes round to zero. -/
theorem rneUnits_small (n : Nat) (h : 2 * n < unitOne) : rneUnits n = 0 := by
  have hlt : n < unitOne := by omega
  unfold rneUnits
  simp only [Nat.div_eq_of_lt hlt, Nat.mod_eq_of_lt hlt]
  rw [if_pos h, Nat.zero_mul]

theorem key_eq_of_sign {f : Fmt} (x : FP f) :
    key x = if x.sign then -(mag x : Int) else (mag x : Int) := rfl

/-- The value of a datum in terms of its key. -/
theorem toRat_mul_one {f : Fmt} (x : FP f) : toRat x * (unitOne : ℚ) = (key x : ℚ) := by
  unfold toRat
  exact div_mul_cancel₀ _ (ne_of_gt unitOne_rat_pos)

theorem toRat_of_key {f : Fmt} (x : FP f) (z : ℤ) (h : key x = z * (unitOne : ℤ)) :
    toRat x = (z : ℚ) := by
  unfold toRat
  rw [h]
  push_cast
  exact mul_div_cancel_right₀ _ (ne_of_gt unitOne_rat_pos)

/-- Small finite arguments give the zero of the same sign. -/
theorem nearestGen_small {f : Fmt} (x : FP f) (hf : isFinite x = true)
    (hm : 2 * mag x < unitOne) : nearestGen x = pack f x.sign 0 0 := by
  obtain ⟨hs, _, hmag⟩ := nearestGen_spec x hf
  rw [rneUnits_small _ hm] at hmag
  have hz : mag (pack f x.sign 0 0) = 0 := by
    apply (mag_eq_zero_iff _).mpr
    unfold isZero
    rw [pack_exp f _ _ _ (two_pow_pos _), pack_mant f _ _ _ (two_pow_pos _)]
    simp
  exact eq_of_sign_mag _ _ (by rw [hs, pack_sign]) (by rw [hmag, hz])

/-- Ties go to the even neighbour (format-generic, on exact rational values). -/
theorem nearestGen_tie {f : Fmt} (x : FP f) (k : ℤ) (hf : isFinite x = true)
    (hk : toRat x = (k : ℚ) + 1 / 2) :
    isFinite (nearestGen x) = true ∧ (nearestGen x).sign = x.sign ∧
    toRat (nearestGen x) = ((if k % 2 = 0 then k else k + 1 : ℤ) : ℚ) := by
  obtain ⟨hs, hfin, hmag⟩ := nearestGen_spec x hf
  refine ⟨hfin, hs, ?_⟩
  have hO := unitOne_pos
  have hkey : 2 * key x = (2 * k + 1) * (unitOne : ℤ) := by
    have h1 := toRat_mul_one x
    rw [hk] at h1
    have h2 : (2 : ℚ) * (key x : ℚ) = (2 * (k : ℚ) + 1) * (unitOne : ℚ) := by
      rw [← h1]
      ring
    exact_mod_cast h2
  apply toRat_of_key
  rw [key_eq_of_sign, hs, hmag]
  rw [key_eq_of_sign] at hkey
  cases hsx : x.sign
  · simp only [hsx, Bool.false_eq_true, if_false] at hkey ⊢
    have hk0 : 0 ≤ k := by
      by_contra hc
      have h1 : (2 * k + 1) * (unitOne : ℤ) < 0 :=
        Int.mul_neg_of_neg_of_pos (by omega) (by exact_mod_cast hO)
      omega
    obtain ⟨t, rfl⟩ := Int.eq_ofNat_of_zero_le hk0
    have hn : 2 * mag x = (2 * t + 1) * unitOne := by exact_mod_cast hkey
    rw [rneUnits_tie _ t hn]
    split <;> split <;> first | omega | (push_cast; ring)
  · simp only [hsx, if_true] at hkey ⊢
    have hk0 : 0 ≤ -k - 1 := by
      by_contra hc
      have h1 : 0 < (2 * k + 1) * (unitOne : ℤ) :=
        Int.mul_pos (by omega) (by exact_mod_cast hO)
      omega
    obtain ⟨t, ht⟩ := Int.eq_ofNat_of_zero_le hk0
    have hkt : k = -(t : ℤ) - 1 := by omega
    subst hkt
    have hn : 2 * mag x = (2 * t + 1) * unitOne := by
      have : (2 : ℤ) * (mag x : ℤ) = (2 * (t : ℤ) + 1) * (unitOne : ℤ) := by
        have e : (2 * (-(t : ℤ) - 1) + 1) * (unitOne : ℤ) = -((2 * (t : ℤ) + 1) * unitOne) := by
          ring
        rw [e] at hkey
        omega
      exact_mod_cast this
    rw [rneUnits_tie _ t hn]
    split <;> split <;> first | omega | (push_cast; ring)

/-- The result is an integer within one half of the argument, and strictly within one
half, hence the unique such integer, unless the argument is halfway between two
integers (format-generic, on exact rational values). -/
theorem nearestGen_near {f : Fmt} (x : FP f) (hf : isFinite x = true) :
    isFinite (nearestGen x) = true ∧
    ∃ z : ℤ, toRat (nearestGen x) = (z : ℚ) ∧ |toRat x - (z : ℚ)| ≤ 1 / 2 ∧
      ((∀ m : ℤ, toRat x ≠ (m : ℚ) + 1 / 2) →
        |toRat x - (z : ℚ)| < 1 / 2 ∧ ∀ m : ℤ, |toRat x - (m : ℚ)| < 1 / 2 → m = z) := by
  obtain ⟨hs, hfin, hmag⟩ := nearestGen_spec x hf
  refine ⟨hfin, ?_⟩
  obtain ⟨T, hT, h1, h2⟩ := rneUnits_near (mag x)
  have hOq := unitOne_rat_pos
  obtain ⟨z, hz, hd1, hd2⟩ : ∃ z : ℤ, key (nearestGen x) = z * (unitOne : ℤ) ∧
      2 * (key x - z * (unitOne : ℤ)) ≤ (unitOne : ℤ) ∧
      -(unitOne : ℤ) ≤ 2 * (key x - z * (unitOne : ℤ)) := by
    rw [key_eq_of_sign, key_eq_of_sign, hs, hmag, hT]
    cases x.sign
    · refine ⟨(T : ℤ), by simp, ?_, ?_⟩ <;> simp only [Bool.false_eq_true, if_false] <;>
        omega
    · refine ⟨-(T : ℤ), by simp, ?_, ?_⟩ <;> simp only [if_true] <;>
        rw [Int.neg_mul] <;> omega
  have hval : toRat x - (z : ℚ) = ((key x - z * (unitOne : ℤ) : ℤ) : ℚ) / (unitOne : ℚ) := by
    unfold toRat
    push_cast
    field_simp
    ring
  have hle : |toRat x - (z : ℚ)| ≤ 1 / 2 := by
    rw [hval, abs_le]
    have e1 : ((2 * (key x - z * (unitOne : ℤ)) : ℤ) : ℚ) ≤ ((unitOne : ℤ) : ℚ) := by
      exact_mod_cast hd1
    have e2 : ((-(unitOne : ℤ) : ℤ) : ℚ) ≤ ((2 * (key x - z * (unitOne : ℤ)) : ℤ) : ℚ) := by
      exact_mod_cast hd2
    push_cast at e1 e2
    constructor
    · rw [le_div_iff₀ hOq]
      push_cast
      linarith
    · rw [div_le_iff₀ hOq]
      push_cast
      linarith
  refine ⟨z, toRat_of_key _ z hz, hle, ?_⟩
  intro hhalf
  have hlt : |toRat x - (z : ℚ)| < 1 / 2 := by
    rcases lt_or_eq_of_le hle with h | h
    · exact h
    · exfalso
      rcases abs_eq (by norm_num : (0 : ℚ) ≤ 1 / 2) |>.mp h with h3 | h3
      · exact hhalf z (by linarith)
      · apply hhalf (z - 1)
        push_cast
        linarith
  refine ⟨hlt, ?_⟩
  intro m hm
  have h3 : |(m : ℚ) - (z : ℚ)| < 1 := by
    have e : (m : ℚ) - (z : ℚ) = (toRat x - (z : ℚ)) - (toRat x - (m : ℚ)) := by ring
    rw [e]
    calc |(toRat x - (z : ℚ)) - (toRat x - (m : ℚ))|
        ≤ |toRat x - (z : ℚ)| + |toRat x - (m : ℚ)| := abs_sub _ _
      _ < 1 := by linarith
  have h4 : |m - z| < 1 := by exact_mod_cast h3
  have h5 := abs_lt.mp h4
  omega

theorem key_bounds_of_toRat {f : Fmt} (x : FP f) :
    (toRat x < 0 ↔ key x < 0) ∧ (0 < toRat x ↔ 0 < key x) ∧
    (-(1 / 2) < toRat x ↔ -(unitOne : ℤ) < 2 * key x) ∧
    (toRat x < 1 / 2 ↔ 2 * key x < (unitOne : ℤ)) := by
  have hOq := unitOne_rat_pos
  unfold toRat
  refine ⟨?_, ?_, ?_, ?_⟩
  · rw [div_lt_iff₀ hOq, zero_mul]
    exact_mod_cast Iff.rfl
  · rw [lt_div_iff₀ hOq, zero_mul]
    exact_mod_cast Iff.rfl
  · rw [lt_div_iff₀ hOq]
    constructor
    · intro h
      have h2 : (-(unitOne : ℤ) : ℚ) < ((2 * key x : ℤ) : ℚ) := by
        push_cast
        linarith
      exact_mod_cast h2
    · intro h
      have h2 : (-(unitOne : ℤ) : ℚ) < ((2 * key x : ℤ) : ℚ) := by exact_mod_cast h
      push_cast at h2
      linarith
  · rw [div_lt_iff₀ hOq]
    constructor
    · intro h
      have h2 : ((2 * key x : ℤ) : ℚ) < ((unitOne : ℤ) : ℚ) := by
        push_cast
        linarith
      exact_mod_cast h2
    · intro h
      have h2 : ((2 * key x : ℤ) : ℚ) < ((unitOne : ℤ) : ℚ) := by exact_mod_cast h
      push_cast at h2
      linarith

/-- A datum whose doubled key is an odd multiple of one has a half-integer value. -/
theorem toRat_half_of_key {f : Fmt} (x : FP f) (k : ℤ)
    (h : 2 * key x = (2 * k + 1) * (unitOne : ℤ)) : toRat x = (k : ℚ) + 1 / 2 := by
  have hOq := unitOne_rat_pos
  have h2 : (2 : ℚ) * (key x : ℚ) = (2 * (k : ℚ) + 1) * (unitOne : ℚ) := by exact_mod_cast h
  unfold toRat
  rw [div_eq_iff (ne_of_gt hOq)]
  linarith

/-- A finite argument in the open interval `(-1/2, 0)` gives `-0.0`, bit for bit. -/
theorem nearestGen_neg_small {f : Fmt} (x : FP f) (hf : isFinite x = true)
    (h1 : -(1 / 2) < toRat x) (h2 : toRat x < 0) : nearestGen x = negZero f := by
  obtain ⟨k1, _, k3, _⟩ := key_bounds_of_toRat x
  have hk1 := k1.mp h2
  have hk3 := k3.mp h1
  rw [key_eq_of_sign] at hk1 hk3
  cases hs : x.sign
  · rw [hs] at hk1
    simp only [Bool.false_eq_true, if_false] at hk1
    omega
  · rw [hs] at hk3
    simp only [if_true] at hk3
    rw [nearestGen_small x hf (by omega), hs]
    rfl

/-- A finite argument in the open interval `(0, 1/2)` gives `+0.0`, bit for bit. -/
theorem nearestGen_pos_small {f : Fmt} (x : FP f) (hf : isFinite x = true)
    (h1 : 0 < toRat x) (h2 : toRat x < 1 / 2) : nearestGen x = zero f := by
  obtain ⟨_, k2, _, k4⟩ := key_bounds_of_toRat x
  have hk2 := k2.mp h1
  have hk4 := k4.mp h2
  rw [key_eq_of_sign] at hk2 hk4
  cases hs : x.sign
  · rw [hs] at hk4
    simp only [Bool.false_eq_true, if_false] at hk4
    rw [nearestGen_small x hf (by omega), hs]
    rfl
  · rw [hs] at hk2
    simp only [if_true] at hk2
    omega

/-! ## Claims about `WasmCompatNearestF64` and `WasmCompatNearestF32` -/

/-- C3 (round half to even on ties): whenever a finite `h` has the exact value
`k + 1/2` for an integer `k`, `WasmCompatNearestF64 h` is the finite datum whose value is
whichever of `k` and `k + 1` is even and whose sign bit is that of `h` (so `0.5` gives
`+0.0` and `-0.5` gives `-0.0`); the same holds for `WasmCompatNearestF32`. -/
theorem C3_ties_to_even :
    (∀ (h : F64) (k : ℤ), isFinite h = true → toRat h = (k : ℚ) + 1 / 2 →
      isFinite (WasmCompatNearestF64 h) = true ∧ (WasmCompatNearestF64 h).sign = h.sign ∧
      toRat (WasmCompatNearestF64 h) = ((if k % 2 = 0 then k else k + 1 : ℤ) : ℚ)) ∧
    (∀ (h : F32) (k : ℤ), isFinite h = true → toRat h = (k : ℚ) + 1 / 2 →
      isFinite (WasmCompatNearestF32 h) = true ∧ (WasmCompatNearestF32 h).sign = h.sign ∧
      toRat (WasmCompatNearestF32 h) = ((if k % 2 = 0 then k else k + 1 : ℤ) : ℚ)) := by
  constructor
  · intro h k hf hk
    rw [nearestF64_eq_gen]
    exact nearestGen_tie h k hf hk
  · intro h k hf hk
    rw [nearestF32_eq_gen h hf]
    exact nearestGen_tie h k hf hk

/-- C4 (nearest-integer correctness): for every finite `f`, `WasmCompatNearestF64 f` is
finite with an integer value `n` such that `|f - n| <= 1/2` in exact arithmetic, and when
`f` is neither an integer nor halfway between two integers, `n` is the unique integer
with `|f - n| < 1/2`.  No assumption is made on the exactness of the subtractions. -/
theorem C4_nearest_integer (f : F64) (hf : isFinite f = true) :
    isFinite (WasmCompatNearestF64 f) = true ∧
    ∃ n : ℤ, toRat (WasmCompatNearestF64 f) = (n : ℚ) ∧ |toRat f - (n : ℚ)| ≤ 1 / 2 ∧
      ((∀ m : ℤ, toRat f ≠ (m : ℚ)) → (∀ m : ℤ, toRat f ≠ (m : ℚ) + 1 / 2) →
        |toRat f - (n : ℚ)| < 1 / 2 ∧ ∀ m : ℤ, |toRat f - (m : ℚ)| < 1 / 2 → m = n) := by
  rw [nearestF64_eq_gen]
  obtain ⟨h1, n, h2, h3, h4⟩ := nearestGen_near f hf
  exact ⟨h1, n, h2, h3, fun _ hh => h4 hh⟩

/-- C5 (sign of zero on rounding): a finite `f` with `-1/2 < f < 0` is rounded to `-0.0`
and a finite `f` with `0 < f < 1/2` to `+0.0`, bit for bit, by `WasmCompatNearestF64`
and likewise by `WasmCompatNearestF32`. -/
theorem C5_sign_of_zero :
    (∀ f : F64, isFinite f = true →
      (-(1 / 2) < toRat f → toRat f < 0 → WasmCompatNearestF64 f = negZero Fmt.b64) ∧
      (0 < toRat f → toRat f < 1 / 2 → WasmCompatNearestF64 f = zero Fmt.b64)) ∧
    (∀ f : F32, isFinite f = true →
      (-(1 / 2) < toRat f → toRat f < 0 → WasmCompatNearestF32 f = negZero Fmt.b32) ∧
      (0 < toRat f → toRat f < 1 / 2 → WasmCompatNearestF32 f = zero Fmt.b32)) := by
  constructor
  · intro f hf
    rw [nearestF64_eq_gen]
    exact ⟨nearestGen_neg_small f hf, nearestGen_pos_small f hf⟩
  · intro f hf
    rw [nearestF32_eq_gen f hf]
    exact ⟨nearestGen_neg_small f hf, nearestGen_pos_small f hf⟩

/-- C6 (identity on special values): both `WasmCompatNearestF64` and
`WasmCompatNearestF32` return `+Inf`, `-Inf`, `+0.0` and `-0.0` unchanged, bit for bit,
and return a NaN on every NaN. -/
theorem C6_nearest_specials :
    (WasmCompatNearestF64 (Inf Fmt.b64 1) = Inf Fmt.b64 1 ∧
      WasmCompatNearestF64 (Inf Fmt.b64 (-1)) = Inf Fmt.b64 (-1) ∧
      (∀ x : F64, IsNaN x = true → IsNaN (WasmCompatNearestF64 x) = true) ∧
      WasmCompatNearestF64 (zero Fmt.b64) = zero Fmt.b64 ∧
      WasmCompatNearestF64 (negZero Fmt.b64) = negZero Fmt.b64) ∧
    (WasmCompatNearestF32 (Inf Fmt.b32 1) = Inf Fmt.b32 1 ∧
      WasmCompatNearestF32 (Inf Fmt.b32 (-1)) = Inf Fmt.b32 (-1) ∧
      (∀ x : F32, IsNaN x = true → IsNaN (WasmCompatNearestF32 x) = true) ∧
      WasmCompatNearestF32 (zero Fmt.b32) = zero Fmt.b32 ∧
      WasmCompatNearestF32 (negZero Fmt.b32) = negZero Fmt.b32) :=
  ⟨⟨nearest_infinite.1 _ (isInfinite_Inf _ _), nearest_infinite.1 _ (isInfinite_Inf _ _),
      nearest_nan.1, nearest_zero.1 _ (by decide), nearest_zero.1 _ (by decide)⟩,
    ⟨nearest_infinite.2 _ (isInfinite_Inf _ _), nearest_infinite.2 _ (isInfinite_Inf _ _),
      nearest_nan.2, nearest_zero.2 _ (by decide), nearest_zero.2 _ (by decide)⟩⟩

set_option exponentiation.threshold 2000 in
/-- Witness for C3 at `2.5` in binary64 (the tie goes to `2`). -/
theorem C3_ties_to_even_witness :
    isFinite (pack Fmt.b64 false 1024 (2 ^ 50)) = true ∧
    toRat (pack Fmt.b64 false 1024 (2 ^ 50)) = ((2 : ℤ) : ℚ) + 1 / 2 ∧
    (isFinite (WasmCompatNearestF64 (pack Fmt.b64 false 1024 (2 ^ 50))) = true ∧
      (WasmCompatNearestF64 (pack Fmt.b64 false 1024 (2 ^ 50))).sign =
        (pack Fmt.b64 false 1024 (2 ^ 50)).sign ∧
      toRat (WasmCompatNearestF64 (pack Fmt.b64 false 1024 (2 ^ 50))) =
        ((if (2 : ℤ) % 2 = 0 then 2 else 2 + 1 : ℤ) : ℚ)) :=
  ⟨by decide, toRat_half_of_key _ 2 (by decide),
    C3_ties_to_even.1 (pack Fmt.b64 false 1024 (2 ^ 50)) 2 (by decide)
      (toRat_half_of_key _ 2 (by decide))⟩

/-- Witness for C4 at the smallest positive subnormal, where `f - ceil` is inexact. -/
theorem C4_nearest_integer_witness :
    isFinite (pack Fmt.b64 false 0 1) = true ∧
    (isFinite (WasmCompatNearestF64 (pack Fmt.b64 false 0 1)) = true ∧
      ∃ n : ℤ, toRat (WasmCompatNearestF64 (pack Fmt.b64 false 0 1)) = (n : ℚ) ∧
        |toRat (pack Fmt.b64 false 0 1) - (n : ℚ)| ≤ 1 / 2 ∧
        ((∀ m : ℤ, toRat (pack Fmt.b64 false 0 1) ≠ (m : ℚ)) →
          (∀ m : ℤ, toRat (pack Fmt.b64 false 0 1) ≠ (m : ℚ) + 1 / 2) →
          |toRat (pack Fmt.b64 false 0 1) - (n : ℚ)| < 1 / 2 ∧
          ∀ m : ℤ, |toRat (pack Fmt.b64 false 0 1) - (m : ℚ)| < 1 / 2 → m = n)) :=
  ⟨by decide, C4_nearest_integer (pack Fmt.b64 false 0 1) (by decide)⟩

set_option exponentiation.threshold 2000 in
/-- Witness for C5 at `-0.25` in binary64. -/
theorem C5_sign_of_zero_witness :
    isFinite (pack Fmt.b64 true 1021 0) = true ∧
    -(1 / 2) < toRat (pack Fmt.b64 true 1021 0) ∧ toRat (pack Fmt.b64 true 1021 0) < 0 ∧
    WasmCompatNearestF64 (pack Fmt.b64 true 1021 0) = negZero Fmt.b64 :=
  ⟨by decide, (key_bounds_of_toRat _).2.2.1.mpr (by decide),
    (key_bounds_of_toRat _).1.mpr (by decide),
    (C5_sign_of_zero.1 (pack Fmt.b64 true 1021 0) (by decide)).1
      ((key_bounds_of_toRat _).2.2.1.mpr (by decide))
      ((key_bounds_of_toRat _).1.mpr (by decide))⟩

/-! ## `WasmCompatMin` and `WasmCompatMax` as minimum and maximum of a total order -/

/-- Data with the same order key are bit-identical. -/
theorem okey_inj {f : Fmt} (x y : FP f) (h : okey x = okey y) : x = y := by
  unfold okey at h
  have hs : x.sign = y.sign ∧ key x = key y := by
    cases hx : x.sign <;> cases hy : y.sign <;> rw [hx, hy] at h <;>
      simp only [Bool.false_eq_true, if_false, if_true] at h <;>
      first | exact ⟨rfl, by omega⟩ | omega
  exact eq_of_sign_mag x y hs.1 ((key_eq_iff_of_sign x y hs.1).mp hs.2)

theorem okey_le_of_key_lt {f : Fmt} (x y : FP f) (h : key x < key y) : okey x ≤ okey y := by
  unfold okey
  split <;> split <;> omega

theorem okey_neg_Inf_le {f : Fmt} (y : FP f) (hy : IsNaN y = false) :
    okey (Inf f (-1)) ≤ okey y := by
  have h := key_neg_Inf_le y hy
  unfold okey
  rw [Inf_sign]
  simp only [Left.neg_neg_iff, zero_lt_one, decide_True, if_true]
  split <;> omega

theorem okey_le_pos_Inf {f : Fmt} (y : FP f) (hy : IsNaN y = false) :
    okey y ≤ okey (Inf f 1) := by
  have h := key_le_pos_Inf y hy
  unfold okey
  rw [Inf_sign]
  simp only [Int.reduceLT, decide_False, Bool.false_eq_true, if_false]
  split <;> omega

/-- When the keys are equal and the operands are not both zeros, the order keys agree. -/
theorem okey_eq_of_key_eq {f : Fmt} (x y : FP f) (h : key x = key y)
    (hz : ¬ (isZero x = true ∧ isZero y = true)) : okey x = okey y := by
  cases hzx : isZero x
  · rw [eq_of_key_eq x y h hzx]
  · exact absurd ⟨hzx, (key_eq_zero_iff y).mp (by rw [← h]; exact (key_eq_zero_iff x).mpr hzx)⟩ hz

theorem select_of_or {f : Fmt} (r x y : FP f)
    (h : (r = x ∧ okey x ≤ okey y) ∨ (r = y ∧ okey y ≤ okey x)) :
    r = if okey x ≤ okey y then x else y := by
  rcases h with ⟨h1, h2⟩ | ⟨h1, h2⟩
  · rw [if_pos h2, h1]
  · by_cases hc : okey x ≤ okey y
    · rw [if_pos hc, h1]
      exact (okey_inj x y (by omega)).symm
    · rw [if_neg hc, h1]

/-- On non-NaN operands `WasmCompatMin` is the minimum for the order key. -/
theorem min_eq_okey (x y : F64) (hx : IsNaN x = false) (hy : IsNaN y = false) :
    WasmCompatMin x y = if okey x ≤ okey y then x else y := by
  apply select_of_or
  unfold WasmCompatMin
  simp only [hx, hy, Bool.or_self, Bool.false_eq_true, if_false]
  by_cases hi : (IsInf x (-1) || IsInf y (-1)) = true
  · rw [if_pos hi]
    rw [Bool.or_eq_true, IsInf_neg_iff, IsInf_neg_iff] at hi
    rcases hi with hi | hi
    · left
      rw [hi]
      exact ⟨rfl, okey_neg_Inf_le y hy⟩
    · right
      rw [hi]
      exact ⟨rfl, okey_neg_Inf_le x hx⟩
  rw [if_neg hi]
  by_cases hz : isZero x = true ∧ isZero y = true
  · rw [if_pos ((zeroCase_iff x y hx hy).mpr hz)]
    have kx := (key_eq_zero_iff x).mpr hz.1
    have ky := (key_eq_zero_iff y).mpr hz.2
    unfold Signbit okey
    rw [kx, ky]
    cases x.sign <;> cases y.sign <;> simp
  · rw [if_neg (mt (zeroCase_iff x y hx hy).mp hz)]
    cases hl : flt x y
    · rw [if_neg Bool.false_ne_true]
      right
      refine ⟨rfl, ?_⟩
      have hk : key y ≤ key x := by simpa [flt, hx, hy] using hl
      rcases lt_or_eq_of_le hk with h1 | h1
      · exact okey_le_of_key_lt y x h1
      · exact le_of_eq (okey_eq_of_key_eq x y h1.symm hz).symm
    · rw [if_pos rfl]
      left
      refine ⟨rfl, ?_⟩
      have hk : key x < key y := by simpa [flt, hx, hy] using hl
      exact okey_le_of_key_lt x y hk

/-- On non-NaN operands `WasmCompatMax` is the maximum for the order key. -/
theorem max_eq_okey (x y : F64) (hx : IsNaN x = false) (hy : IsNaN y = false) :
    WasmCompatMax x y = if okey x ≤ okey y then y else x := by
  have hsel : (WasmCompatMax x y = y ∧ okey x ≤ okey y) ∨
      (WasmCompatMax x y = x ∧ okey y ≤ okey x) := by
    unfold WasmCompatMax
    simp only [hx, hy, Bool.or_self, Bool.false_eq_true, if_false]
    by_cases hi : (IsInf x 1 || IsInf y 1) = true
    · rw [if_pos hi]
      rw [Bool.or_eq_true, IsInf_pos_iff, IsInf_pos_iff] at hi
      rcases hi with hi | hi
      · right
        rw [hi]
        exact ⟨rfl, okey_le_pos_Inf y hy⟩
      · left
        rw [hi]
        exact ⟨rfl, okey_le_pos_Inf x hx⟩
    rw [if_neg hi]
    by_cases hz : isZero x = true ∧ isZero y = true
    · rw [if_pos ((zeroCase_iff x y hx hy).mpr hz)]
      have kx := (key_eq_zero_iff x).mpr hz.1
      have ky := (key_eq_zero_iff y).mpr hz.2
      unfold Signbit okey
      rw [kx, ky]
      cases x.sign <;> cases y.sign <;> simp
    · rw [if_neg (mt (zeroCase_iff x y hx hy).mp hz)]
      unfold fgt
      cases hl : flt y x
      · rw [if_neg Bool.false_ne_true]
        left
        refine ⟨rfl, ?_⟩
        have hk : key x ≤ key y := by simpa [flt, hx, hy] using hl
        rcases lt_or_eq_of_le hk with h1 | h1
        · exact okey_le_of_key_lt x y h1
        · exact le_of_eq (okey_eq_of_key_eq x y h1 hz)
      · rw [if_pos rfl]
        right
        refine ⟨rfl, ?_⟩
        have hk : key y < key x := by simpa [flt, hx, hy] using hl
        exact okey_le_of_key_lt y x hk
  rcases hsel with ⟨h1, h2⟩ | ⟨h1, h2⟩
  · rw [if_pos h2, h1]
  · by_cases hc : okey x ≤ okey y
    · rw [if_pos hc, h1]
      exact okey_inj x y (by omega)
    · rw [if_neg hc, h1]

theorem isNaN_fneg {f : Fmt} (x : FP f) : IsNaN (fneg x) = IsNaN x := rfl

theorem fneg_fneg {f : Fmt} (x : FP f) : fneg (fneg x) = x := by
  unfold fneg
  simp

theorem okey_fneg {f : Fmt} (x : FP f) : okey (fneg x) = 1 - okey x := by
  have hm : mag (fneg x) = mag x := mag_fneg x
  have hs : (fneg x).sign = !x.sign := rfl
  unfold okey key
  rw [hm, hs]
  cases x.sign
  · simp only [Bool.not_false, if_true, Bool.false_eq_true, if_false]
    omega
  · simp only [Bool.not_true, Bool.false_eq_true, if_false, if_true]
    omega

theorem min_of_nan (x y : F64) (h : (IsNaN x || IsNaN y) = true) :
    WasmCompatMin x y = NaN Fmt.b64 := by
  unfold WasmCompatMin
  rw [if_pos h]

theorem max_of_nan (x y : F64) (h : (IsNaN x || IsNaN y) = true) :
    WasmCompatMax x y = NaN Fmt.b64 := by
  unfold WasmCompatMax
  rw [if_pos h]

/-- Associativity on non-NaN operands, from the order-key characterisation. -/
theorem min_max_assoc_of_not_nan (x y z : F64) (hx : IsNaN x = false) (hy : IsNaN y = false)
    (hz : IsNaN z = false) :
    WasmCompatMin (WasmCompatMin x y) z = WasmCompatMin x (WasmCompatMin y z) ∧
    WasmCompatMax (WasmCompatMax x y) z = WasmCompatMax x (WasmCompatMax y z) := by
  constructor
  · rw [min_eq_okey x y hx hy, min_eq_okey y z hy hz]
    by_cases c1 : okey x ≤ okey y <;> by_cases c2 : okey y ≤ okey z <;>
      simp only [c1, c2, if_true, if_false] <;>
      simp only [min_eq_okey x y hx hy, min_eq_okey x z hx hz, min_eq_okey y z hy hz] <;>
      split_ifs <;> first | rfl | omega
  · rw [max_eq_okey x y hx hy, max_eq_okey y z hy hz]
    by_cases c1 : okey x ≤ okey y <;> by_cases c2 : okey y ≤ okey z <;>
      simp only [c1, c2, if_true, if_false] <;>
      simp only [max_eq_okey x y hx hy, max_eq_okey x z hx hz, max_eq_okey y z hy hz] <;>
      split_ifs <;> first | rfl | omega

/-- C13 (min and max partition their operands): for non-NaN `x`, `y` the pair
`(WasmCompatMin x y, WasmCompatMax x y)` is, bit for bit, `(x, y)` or `(y, x)`. -/
theorem C13_min_max_partition (x y : F64) (hx : IsNaN x = false) (hy : IsNaN y = false) :
    (WasmCompatMin x y = x ∧ WasmCompatMax x y = y) ∨
    (WasmCompatMin x y = y ∧ WasmCompatMax x y = x) := by
  rw [min_eq_okey x y hx hy, max_eq_okey x y hx hy]
  by_cases c : okey x ≤ okey y
  · left
    rw [if_pos c, if_pos c]
    exact ⟨rfl, rfl⟩
  · right
    rw [if_neg c, if_neg c]
    exact ⟨rfl, rfl⟩

/-- Witness for C13 at `(+0.0, -0.0)`. -/
theorem C13_min_max_partition_witness :
    IsNaN (zero Fmt.b64) = false ∧ IsNaN (negZero Fmt.b64) = false ∧
    ((WasmCompatMin (zero Fmt.b64) (negZero Fmt.b64) = zero Fmt.b64 ∧
        WasmCompatMax (zero Fmt.b64) (negZero Fmt.b64) = negZero Fmt.b64) ∨
      (WasmCompatMin (zero Fmt.b64) (negZero Fmt.b64) = negZero Fmt.b64 ∧
        WasmCompatMax (zero Fmt.b64) (negZero Fmt.b64) = zero Fmt.b64)) :=
  ⟨by decide, by decide,
    C13_min_max_partition (zero Fmt.b64) (negZero Fmt.b64) (by decide) (by decide)⟩

/-- C14 (min/max duality under negation): for non-NaN `x`, `y`, `WasmCompatMin x y` is
bit-identical to the sign-bit flip of `WasmCompatMax (-x) (-y)`; infinities and signed
zeros are included. -/
theorem C14_min_max_duality (x y : F64) (hx : IsNaN x = false) (hy : IsNaN y = false) :
    WasmCompatMin x y = fneg (WasmCompatMax (fneg x) (fneg y)) := by
  rw [min_eq_okey x y hx hy,
    max_eq_okey (fneg x) (fneg y) (by rw [isNaN_fneg]; exact hx) (by rw [isNaN_fneg]; exact hy),
    okey_fneg, okey_fneg]
  by_cases c : okey x ≤ okey y
  · rw [if_pos c]
    by_cases c2 : 1 - okey x ≤ 1 - okey y
    · rw [if_pos c2, fneg_fneg]
      exact okey_inj x y (by omega)
    · rw [if_neg c2, fneg_fneg]
  · rw [if_neg c, if_pos (by omega), fneg_fneg]

/-- Witness for C14 at `(+0.0, -Inf)`. -/
theorem C14_min_max_duality_witness :
    IsNaN (zero Fmt.b64) = false ∧ IsNaN (Inf Fmt.b64 (-1)) = false ∧
    WasmCompatMin (zero Fmt.b64) (Inf Fmt.b64 (-1)) =
      fneg (WasmCompatMax (fneg (zero Fmt.b64)) (fneg (Inf Fmt.b64 (-1)))) :=
  ⟨by decide, by decide,
    C14_min_max_duality (zero Fmt.b64) (Inf Fmt.b64 (-1)) (by decide) (by decide)⟩

/-- C15 (associativity): for all `x`, `y`, `z`, NaNs, infinities and mixed signed zeros
included, `WasmCompatMin (WasmCompatMin x y) z` and `WasmCompatMin x (WasmCompatMin y z)`
have the same bit pattern, and likewise for `WasmCompatMax`. -/
theorem C15_associativity (x y z : F64) :
    WasmCompatMin (WasmCompatMin x y) z = WasmCompatMin x (WasmCompatMin y z) ∧
    WasmCompatMax (WasmCompatMax x y) z = WasmCompatMax x (WasmCompatMax y z) := by
  have hN := isNaN_NaN Fmt.b64
  cases hx : IsNaN x
  · cases hy : IsNaN y
    · cases hz : IsNaN z
      · exact min_max_assoc_of_not_nan x y z hx hy hz
      · rw [min_of_nan _ z (by simp [hz]), min_of_nan y z (by simp [hz]),
          min_of_nan x _ (by simp [hN]), max_of_nan _ z (by simp [hz]),
          max_of_nan y z (by simp [hz]), max_of_nan x _ (by simp [hN])]
        exact ⟨rfl, rfl⟩
    · rw [min_of_nan x y (by simp [hy]), min_of_nan y z (by simp [hy]),
        min_of_nan _ z (by simp [hN]), min_of_nan x _ (by simp [hN]),
        max_of_nan x y (by simp [hy]), max_of_nan y z (by simp [hy]),
        max_of_nan _ z (by simp [hN]), max_of_nan x _ (by simp [hN])]
      exact ⟨rfl, rfl⟩
  · rw [min_of_nan x y (by simp [hx]), min_of_nan x _ (by simp [hx]),
      min_of_nan _ z (by simp [hN]), max_of_nan x y (by simp [hx]),
      max_of_nan x _ (by simp [hx]), max_of_nan _ z (by simp [hN])]
    exact ⟨rfl, rfl⟩

/-! ## Integers are fixed points of `nearest` -/

theorem rneUnits_of_mod_zero (n : Nat) (h : n % unitOne = 0) : rneUnits n = n := by
  have hO := unitOne_pos
  have hdm := Nat.div_add_mod n unitOne
  unfold rneUnits
  simp only [h]
  rw [if_pos (by omega)]
  rw [h, Nat.mul_comm] at hdm
  omega

/-- The value rounded by `rneUnits` is an integer. -/
theorem rneUnits_mod_one (n : Nat) : rneUnits n % unitOne = 0 := by
  obtain ⟨T, hT, _, _⟩ := rneUnits_near n
  rw [hT]
  exact Nat.mul_mod_left _ _

/-- The algorithm returns a finite integer unchanged, bit for bit. -/
theorem nearestGen_fix {f : Fmt} (x : FP f) (hf : isFinite x = true)
    (hm : mag x % unitOne = 0) : nearestGen x = x := by
  obtain ⟨hs, _, hmag⟩ := nearestGen_spec x hf
  exact eq_of_sign_mag _ _ hs (by rw [hmag, rneUnits_of_mod_zero _ hm])

theorem natAbs_key {f : Fmt} (x : FP f) : (key x).natAbs = mag x := by
  unfold key
  split <;> simp

/-- A datum with an integer value has a magnitude that is a multiple of one. -/
theorem mag_mod_one_of_toRat_int {f : Fmt} (x : FP f) (z : ℤ) (h : toRat x = (z : ℚ)) :
    mag x % unitOne = 0 := by
  have h1 := toRat_mul_one x
  rw [h] at h1
  have h2 : key x = z * (unitOne : ℤ) := by exact_mod_cast h1.symm
  have h3 : mag x = z.natAbs * unitOne := by
    rw [← natAbs_key, h2, Int.natAbs_mul, Int.natAbs_ofNat]
  rw [h3]
  exact Nat.mul_mod_left _ _

theorem abs_toRat {f : Fmt} (x : FP f) : |toRat x| = (mag x : ℚ) / (unitOne : ℚ) := by
  have hOq := unitOne_rat_pos
  have hk : |(key x : ℚ)| = (mag x : ℚ) := by
    rw [← natAbs_key, Nat.cast_natAbs, Int.cast_abs]
  unfold toRat
  rw [abs_div, abs_of_pos hOq, hk]

/-- A finite datum of magnitude at least `2^mbits` is an integer. -/
theorem mag_mod_one_of_large {f : Fmt} (x : FP f)
    (h : ((2 : ℚ) ^ f.mbits) ≤ |toRat x|) : mag x % unitOne = 0 := by
  have hOq := unitOne_rat_pos
  rw [abs_toRat, le_div_iff₀ hOq] at h
  have h1 : 2 ^ f.mbits * unitOne ≤ mag x := by exact_mod_cast h
  apply mag_mod_one_of_sh_ge
  by_contra hc
  have h2 := mag_div_one_lt x (by omega)
  rw [Nat.div_lt_iff_lt_mul unitOne_pos] at h2
  omega

theorem finite_or_infinite {f : Fmt} (x : FP f) (h : IsNaN x = false) :
    isFinite x = true ∨ isInfinite x = true := by
  have h1 := exp_le_emax x
  unfold IsNaN at h
  unfold isFinite isInfinite
  by_cases he : x.exp.val = f.emax
  · right
    simp [he] at h ⊢
    exact h
  · left
    simp
    omega

/-- Both source functions return a non-NaN integer-valued argument unchanged. -/
theorem nearest_fix :
    (∀ x : F64, IsNaN x = false → mag x % unitOne = 0 → WasmCompatNearestF64 x = x) ∧
    (∀ x : F32, IsNaN x = false → mag x % unitOne = 0 → WasmCompatNearestF32 x = x) := by
  constructor
  · intro x hn hm
    rcases finite_or_infinite x hn with hf | hi
    · rw [nearestF64_eq_gen]
      exact nearestGen_fix x hf hm
    · exact nearest_infinite.1 x hi
  · intro x hn hm
    rcases finite_or_infinite x hn with hf | hi
    · rw [nearestF32_eq_gen x hf]
      exact nearestGen_fix x hf hm
    · exact nearest_infinite.2 x hi

/-- The magnitude given to an infinity is a multiple of one. -/
theorem mag_mod_one_of_isInfinite {f : Fmt} (x : FP f) (h : isInfinite x = true) :
    mag x % unitOne = 0 := by
  have hb := fmt_one_bounds f
  apply mag_mod_one_of_sh_ge
  unfold isInfinite at h
  simp at h
  unfold sh
  rw [h.1]
  omega

/-- On non-NaN arguments both source functions give a non-NaN result, of the same sign,
whose magnitude is the argument's magnitude rounded to the nearest integer, ties to
even. -/
theorem nearest_spec_all :
    (∀ x : F64, IsNaN x = false →
      IsNaN (WasmCompatNearestF64 x) = false ∧ (WasmCompatNearestF64 x).sign = x.sign ∧
      mag (WasmCompatNearestF64 x) = rneUnits (mag x)) ∧
    (∀ x : F32, IsNaN x = false →
      IsNaN (WasmCompatNearestF32 x) = false ∧ (WasmCompatNearestF32 x).sign = x.sign ∧
      mag (WasmCompatNearestF32 x) = rneUnits (mag x)) := by
  constructor
  · intro x hn
    rcases finite_or_infinite x hn with hf | hi
    · rw [nearestF64_eq_gen]
      obtain ⟨h1, h2, h3⟩ := nearestGen_spec x hf
      exact ⟨isNaN_of_isFinite _ h2, h1, h3⟩
    · rw [nearest_infinite.1 x hi, rneUnits_of_mod_zero _ (mag_mod_one_of_isInfinite x hi)]
      exact ⟨hn, rfl, rfl⟩
  · intro x hn
    rcases finite_or_infinite x hn with hf | hi
    · rw [nearestF32_eq_gen x hf]
      obtain ⟨h1, h2, h3⟩ := nearestGen_spec x hf
      exact ⟨isNaN_of_isFinite _ h2, h1, h3⟩
    · rw [nearest_infinite.2 x hi, rneUnits_of_mod_zero _ (mag_mod_one_of_isInfinite x hi)]
      exact ⟨hn, rfl, rfl⟩

/-- C11 (nearest fixes integers): a non-NaN `f` whose value is an integer, in particular
every `f` with `|f| >= 2^52` (`2^23` in binary32) and both signed zeros, is returned
bit for bit by `WasmCompatNearestF64`, and likewise by `WasmCompatNearestF32`. -/
theorem C11_nearest_fixes_integers :
    (∀ f : F64, IsNaN f = false →
      ((∃ z : ℤ, toRat f = (z : ℚ)) ∨ (2 : ℚ) ^ 52 ≤ |toRat f|) →
      WasmCompatNearestF64 f = f) ∧
    (∀ f : F32, IsNaN f = false →
      ((∃ z : ℤ, toRat f = (z : ℚ)) ∨ (2 : ℚ) ^ 23 ≤ |toRat f|) →
      WasmCompatNearestF32 f = f) := by
  constructor
  · intro f hn h
    apply nearest_fix.1 f hn
    rcases h with ⟨z, hz⟩ | h
    · exact mag_mod_one_of_toRat_int f z hz
    · exact mag_mod_one_of_large f h
  · intro f hn h
    apply nearest_fix.2 f hn
    rcases h with ⟨z, hz⟩ | h
    · exact mag_mod_one_of_toRat_int f z hz
    · exact mag_mod_one_of_large f h

set_option exponentiation.threshold 2000 in
/-- Witness for C11 at `-(2^52 + 1)` in binary64. -/
theorem C11_nearest_fixes_integers_witness :
    IsNaN (pack Fmt.b64 true 1075 1) = false ∧
    toRat (pack Fmt.b64 true 1075 1) = ((-(2 ^ 52 + 1) : ℤ) : ℚ) ∧
    WasmCompatNearestF64 (pack Fmt.b64 true 1075 1) = pack Fmt.b64 true 1075 1 :=
  ⟨by decide, toRat_of_key _ _ (by decide),
    C11_nearest_fixes_integers.1 (pack Fmt.b64 true 1075 1) (by decide)
      (Or.inl ⟨-(2 ^ 52 + 1), toRat_of_key _ _ (by decide)⟩)⟩

/-- Widening commutes with `nearest` on finite binary32 arguments. -/
theorem toF64_nearest_finite (f : F32) (hf : isFinite f = true) :
    toF64 (WasmCompatNearestF32 f) = WasmCompatNearestF64 (toF64 f) := by
  obtain ⟨s1, f1, m1⟩ := toF64_spec f hf
  rw [nearestF32_eq_gen f hf, nearestF64_eq_gen]
  obtain ⟨s2, f2, m2⟩ := nearestGen_spec f hf
  obtain ⟨s3, _, m3⟩ := nearestGen_spec (toF64 f) f1
  obtain ⟨s4, _, m4⟩ := toF64_spec (nearestGen f) f2
  exact eq_of_sign_mag _ _ (by rw [s4, s2, s3, s1]) (by rw [m4, m2, m3, m1])

/-- C12 (agreement of the two precisions): for every non-NaN binary32 `f`, widening
`WasmCompatNearestF32 f` to binary64 gives, bit for bit, `WasmCompatNearestF64` of the
widened `f`; for a NaN `f` both sides are NaNs. -/
theorem C12_precisions_agree (f : F32) :
    (IsNaN f = false → toF64 (WasmCompatNearestF32 f) = WasmCompatNearestF64 (toF64 f)) ∧
    (IsNaN f = true → IsNaN (toF64 (WasmCompatNearestF32 f)) = true ∧
      IsNaN (WasmCompatNearestF64 (toF64 f)) = true) := by
  constructor
  · intro hn
    rcases finite_or_infinite f hn with hf | hi
    · exact toF64_nearest_finite f hf
    · have h64 : isInfinite (toF64 f) = true := by
        rw [toF64, convert_infinite _ f hi]
        exact isInfinite_pack _ _
      rw [nearest_infinite.2 f hi, nearest_infinite.1 _ h64]
  · intro hn
    exact ⟨isNaN_convert _ _ (nearest_nan.2 f hn), nearest_nan.1 _ (isNaN_convert _ f hn)⟩

/-- Witness for C12 at `1.5f`. -/
theorem C12_precisions_agree_witness :
    IsNaN (pack Fmt.b32 false 127 (2 ^ 22)) = false ∧
    toF64 (WasmCompatNearestF32 (pack Fmt.b32 false 127 (2 ^ 22))) =
      WasmCompatNearestF64 (toF64 (pack Fmt.b32 false 127 (2 ^ 22))) :=
  ⟨by decide, (C12_precisions_agree (pack Fmt.b32 false 127 (2 ^ 22))).1 (by decide)⟩

/-- C16 (nearest is idempotent): for every non-NaN `f`, applying `WasmCompatNearestF64`
twice gives bit for bit the same as applying it once, and a NaN stays a NaN under one
and under two applications; likewise for `WasmCompatNearestF32`. -/
theorem C16_nearest_idempotent :
    (∀ f : F64,
      (IsNaN f = false →
        WasmCompatNearestF64 (WasmCompatNearestF64 f) = WasmCompatNearestF64 f) ∧
      (IsNaN f = true → IsNaN (WasmCompatNearestF64 f) = true ∧
        IsNaN (WasmCompatNearestF64 (WasmCompatNearestF64 f)) = true)) ∧
    (∀ f : F32,
      (IsNaN f = false →
        WasmCompatNearestF32 (WasmCompatNearestF32 f) = WasmCompatNearestF32 f) ∧
      (IsNaN f = true → IsNaN (WasmCompatNearestF32 f) = true ∧
        IsNaN (WasmCompatNearestF32 (WasmCompatNearestF32 f)) = true)) := by
  constructor
  · intro f
    constructor
    · intro hn
      obtain ⟨h1, _, h3⟩ := nearest_spec_all.1 f hn
      exact nearest_fix.1 _ h1 (by rw [h3]; exact rneUnits_mod_one _)
    · intro hn
      exact ⟨nearest_nan.1 f hn, nearest_nan.1 _ (nearest_nan.1 f hn)⟩
  · intro f
    constructor
    · intro hn
      obtain ⟨h1, _, h3⟩ := nearest_spec_all.2 f hn
      exact nearest_fix.2 _ h1 (by rw [h3]; exact rneUnits_mod_one _)
    · intro hn
      exact ⟨nearest_nan.2 f hn, nearest_nan.2 _ (nearest_nan.2 f hn)⟩

/-- Witness for C16 at `2.5` in binary64. -/
theorem C16_nearest_idempotent_witness :
    IsNaN (pack Fmt.b64 false 1024 (2 ^ 50)) = false ∧
    WasmCompatNearestF64 (WasmCompatNearestF64 (pack Fmt.b64 false 1024 (2 ^ 50))) =
      WasmCompatNearestF64 (pack Fmt.b64 false 1024 (2 ^ 50)) :=
  ⟨by decide, (C16_nearest_idempotent.1 (pack Fmt.b64 false 1024 (2 ^ 50))).1 (by decide)⟩

/-! ## Monotonicity of `nearest` -/

theorem rneUnits_mono (n m : Nat) (h : n ≤ m) : rneUnits n ≤ rneUnits m := by
  have hO := unitOne_pos
  have hn := Nat.div_add_mod n unitOne
  have hm := Nat.div_add_mod m unitOne
  have hn2 := Nat.mod_lt n hO
  have hm2 := Nat.mod_lt m hO
  have hdiv : n / unitOne ≤ m / unitOne := Nat.div_le_div_right h
  have hstep : n / unitOne < m / unitOne →
      n / unitOne * unitOne + unitOne ≤ m / unitOne * unitOne := by
    intro hlt
    have := Nat.mul_le_mul_right unitOne (Nat.succ_le_of_lt hlt)
    rwa [Nat.succ_mul] at this
  have hsame : n / unitOne = m / unitOne → n / unitOne * unitOne = m / unitOne * unitOne := by
    intro he
    rw [he]
  have hs1 : (n / unitOne + 1) * unitOne = n / unitOne * unitOne + unitOne := by ring
  have hs2 : (m / unitOne + 1) * unitOne = m / unitOne * unitOne + unitOne := by ring
  rw [Nat.mul_comm] at hn hm
  unfold rneUnits
  simp only [hs1, hs2]
  generalize unitOne = O at *
  generalize n / O * O = pn at *
  generalize m / O * O = pm at *
  split_ifs <;> omega

theorem rneKey_mono (a b : Int) (h : a ≤ b) : rneKey a ≤ rneKey b := by
  unfold rneKey
  split <;> split
  · have := rneUnits_mono b.natAbs a.natAbs (by omega)
    omega
  · omega
  · omega
  · have := rneUnits_mono a.natAbs b.natAbs (by omega)
    omega

/-- The key of the result of `WasmCompatNearestF64` on a non-NaN argument. -/
theorem key_nearestF64 (x : F64) (hn : IsNaN x = false) :
    IsNaN (WasmCompatNearestF64 x) = false ∧
    key (WasmCompatNearestF64 x) = rneKey (key x) := by
  obtain ⟨h1, h2, h3⟩ := nearest_spec_all.1 x hn
  refine ⟨h1, ?_⟩
  have h0 := rneUnits_zero
  rw [key_eq_of_sign, key_eq_of_sign, h2, h3]
  unfold rneKey
  cases x.sign
  · simp only [Bool.false_eq_true, if_false, Int.natAbs_ofNat]
    rw [if_neg (by omega)]
  · simp only [if_true, Int.natAbs_neg, Int.natAbs_ofNat]
    split
    · rfl
    · have hz : mag x = 0 := by omega
      rw [hz, h0]
      rfl

/-- C17 (nearest is monotone): for non-NaN `x <= y` under the IEEE ordering, infinities
included, `WasmCompatNearestF64 x <= WasmCompatNearestF64 y`. -/
theorem C17_nearest_monotone (x y : F64) (hx : IsNaN x = false) (hy : IsNaN y = false)
    (h : fle x y = true) : fle (WasmCompatNearestF64 x) (WasmCompatNearestF64 y) = true := by
  obtain ⟨nx, kx⟩ := key_nearestF64 x hx
  obtain ⟨ny, ky⟩ := key_nearestF64 y hy
  have hk : key x ≤ key y := by simpa [fle, hx, hy] using h
  have := rneKey_mono _ _ hk
  unfold fle
  rw [nx, ny, kx, ky]
  simpa using this

set_option exponentiation.threshold 2000 in
/-- Witness for C17 at `-Inf <= 2.5`. -/
theorem C17_nearest_monotone_witness :
    IsNaN (Inf Fmt.b64 (-1)) = false ∧ IsNaN (pack Fmt.b64 false 1024 (2 ^ 50)) = false ∧
    fle (Inf Fmt.b64 (-1)) (pack Fmt.b64 false 1024 (2 ^ 50)) = true ∧
    fle (WasmCompatNearestF64 (Inf Fmt.b64 (-1)))
      (WasmCompatNearestF64 (pack Fmt.b64 false 1024 (2 ^ 50))) = true :=
  ⟨by decide, by decide, by decide,
    C17_nearest_monotone (Inf Fmt.b64 (-1)) (pack Fmt.b64 false 1024 (2 ^ 50))
      (by decide) (by decide) (by decide)⟩

end Moremath
